import Mathlib

/-!
Shallow embedding of the gallery-cache subsystem of koishi-plugin-RandomPic
(source: src/unnamed/part_000, the fuller variant of src/src/index.ts; the two
variants share `pickRandom`, `debounce`, `buildCommandCache` and the command
action, and part_000 additionally threads a `seen` set and a ScanResult through
`collectImages` and reinstalls watchers inside `refreshCommand`).

Modelling conventions:
* Filesystem paths are lists of name segments; `path.join(dir, name)` is
  `dir ++ [name]`.
* The filesystem is an association list from a directory's path to its
  `readdir` listing; a missing key models a directory whose `readdir` throws.
* A `Dirent` mirrors `fs.Dirent`: for a symbolic link both `isFile()` and
  `isDirectory()` are false (Node's `readdir` with `withFileTypes` reports the
  link itself and never follows it); the link's target is recorded in the model
  so that link-following reachability can be stated, even though the code never
  looks at it.
* JavaScript `Set` objects are insertion-ordered lists without duplicates
  (`setAdd` is `Set.add`, `setUnion` is `forEach(x => s.add(x))`).
* `crypto.randomInt(n)` is an arbitrary tape `tape : Nat → Nat` read at
  successive positions, reduced mod `n`; loops driven by it carry fuel and
  return `none` when the fuel runs out.
-/

namespace RandomPic

/-- A filesystem path, as a list of name segments: `path.join dir name = dir ++ [name]`. -/
abbrev Path := List String

/-- The kind of a directory entry as reported by `readdir(dir, { withFileTypes: true })`.
A symbolic link records its resolved target (unused by the scanner, which never
follows links), so reachability through links can be expressed. -/
inductive EntryKind where
  | file : EntryKind
  | directory : EntryKind
  | symlink : Path → EntryKind
  | other : EntryKind
deriving DecidableEq

/-- One `readdir` entry: a name plus its kind (models `fs.Dirent`). -/
structure Dirent where
  name : String
  kind : EntryKind
deriving DecidableEq

/-- A filesystem: association list from directory path to its `readdir` listing.
A path with no binding models a directory that cannot be read. -/
abbrev FS := List (Path × List Dirent)

/-- Look up the `readdir` listing of a directory. -/
def lookupFS : FS → Path → Option (List Dirent)
  | [], _ => none
  | (k, es) :: rest, p => if k = p then some es else lookupFS rest p

theorem lookupFS_mem {fsys : FS} {p : Path} {es : List Dirent}
    (h : lookupFS fsys p = some es) : (p, es) ∈ fsys := by
  induction fsys with
  | nil => simp [lookupFS] at h
  | cons kv rest ih =>
    obtain ⟨k, es'⟩ := kv
    by_cases hk : k = p
    · subst hk
      simp [lookupFS] at h
      simp [h]
    · simp [lookupFS, hk] at h
      exact List.mem_cons_of_mem _ (ih h)

/-- Models `Set.add` on an insertion-ordered duplicate-free list. -/
def setAdd (l : List Path) (x : Path) : List Path :=
  if x ∈ l then l else l ++ [x]

/-- Models `xs.forEach(x => l.add(x))`: union a list into a `Set`. -/
def setUnion (l : List Path) (xs : List Path) : List Path :=
  xs.foldl setAdd l

@[simp] theorem mem_setAdd {l : List Path} {x y : Path} :
    y ∈ setAdd l x ↔ y ∈ l ∨ y = x := by
  unfold setAdd
  by_cases h : x ∈ l
  · simp only [if_pos h]
    constructor
    · exact fun hy => Or.inl hy
    · rintro (hy | rfl)
      · exact hy
      · exact h
  · simp [if_neg h, or_comm]

theorem subset_setAdd (l : List Path) (x : Path) : l ⊆ setAdd l x := by
  intro y hy; simp [mem_setAdd]; exact Or.inl hy

theorem nodup_setAdd {l : List Path} (h : l.Nodup) (x : Path) : (setAdd l x).Nodup := by
  unfold setAdd
  by_cases hx : x ∈ l
  · simpa [if_pos hx]
  · simp only [if_neg hx, List.nodup_append]
    refine ⟨h, by simp, ?_⟩
    intro a ha hb
    simp only [List.mem_singleton] at hb
    subst hb
    exact hx ha

@[simp] theorem mem_setUnion {l xs : List Path} {y : Path} :
    y ∈ setUnion l xs ↔ y ∈ l ∨ y ∈ xs := by
  induction xs generalizing l with
  | nil => simp [setUnion]
  | cons x rest ih =>
    simp only [setUnion, List.foldl_cons] at *
    rw [ih]
    simp [mem_setAdd]
    tauto

theorem subset_setUnion_left (l xs : List Path) : l ⊆ setUnion l xs := by
  intro y hy; rw [mem_setUnion]; exact Or.inl hy

theorem subset_setUnion_right (l xs : List Path) : xs ⊆ setUnion l xs := by
  intro y hy; rw [mem_setUnion]; exact Or.inr hy

theorem nodup_setUnion {l : List Path} (h : l.Nodup) (xs : List Path) :
    (setUnion l xs).Nodup := by
  induction xs generalizing l with
  | nil => simpa [setUnion]
  | cons x rest ih =>
    simpa [setUnion, List.foldl_cons] using ih (nodup_setAdd h x)

/-- The recognized image extensions (`IMAGE_EXTENSIONS` in the source). -/
def IMAGE_EXTENSIONS : List String :=
  [".jpg", ".jpeg", ".png", ".gif", ".bmp", ".webp", ".avif"]

/-- Models `path.extname` on a base name: the suffix starting at the last dot, empty if
there is no dot or the only dot is the leading character (`.bashrc` has no
extension, `a.tar.gz` has extension `.gz`, `a.` has extension `.`). -/
def extname (s : String) : String :=
  let cs := s.toList
  let dotIdxs := (List.range cs.length).filter (fun i => cs.getD i ' ' = '.')
  match dotIdxs.getLast? with
  | none => ""
  | some i => if i = 0 then "" else String.mk (cs.drop i)

/-- Models `String.prototype.toLowerCase`, character by character (the recognized
extensions are ASCII, where JavaScript and `Char.toLower` agree). -/
def toLowerStr (s : String) : String :=
  String.mk (s.toList.map Char.toLower)

/-- The scanner's extension filter: `IMAGE_EXTENSIONS.has(path.extname(name).toLowerCase())`. -/
def isImageName (name : String) : Bool :=
  IMAGE_EXTENSIONS.contains (toLowerStr (extname name))

/-! ## Sampler (`pickRandom`)

Source (part_000 lines 113–124, identical logic in index.ts lines 106–117):
rejection sampling of `count` distinct indices; `crypto.randomInt(len)` is
modelled as `tape k % len` for successive positions `k` of an arbitrary tape,
and the `while` loop carries fuel, returning `none` on exhaustion. -/

/-- The `while (picked.length < count && used.size < source.length)` loop of
`pickRandom`: draw `tape k % items.length`, skip already-used indices,
otherwise record the index and push `source[index]`. -/
def pickRandomGo {α : Type} (items : List α) (count : Nat) (tape : Nat → Nat) :
    Nat → Nat → List Nat → List α → Option (List α)
  | 0, _, _, _ => none
  | fuel + 1, k, used, chosen =>
    if chosen.length < count ∧ used.length < items.length then
      let idx := tape k % items.length
      if idx ∈ used then pickRandomGo items count tape fuel (k + 1) used chosen
      else if hlt : idx < items.length then
        pickRandomGo items count tape fuel (k + 1) (used ++ [idx])
          (chosen ++ [items.get ⟨idx, hlt⟩])
      else none
    else some chosen

/-- Models `pickRandom(source, count)`: if `count >= source.length` return a copy of
the whole list, otherwise run the rejection-sampling loop. -/
def pickRandom {α : Type} (items : List α) (count : Nat) (tape : Nat → Nat) (fuel : Nat) :
    Option (List α) :=
  if items.length ≤ count then some items
  else pickRandomGo items count tape fuel 0 [] []

/-- Relation between a used index and a chosen element: the element sits at that
index of the input list. -/
def IdxAt {α : Type} (items : List α) (i : Nat) (a : α) : Prop := items.get? i = some a

theorem forall₂_mem_right {α : Type} {items : List α} {used : List Nat} {chosen : List α}
    (h : List.Forall₂ (IdxAt items) used chosen) {a : α} (ha : a ∈ chosen) :
    ∃ i ∈ used, IdxAt items i a := by
  induction h with
  | nil => simp at ha
  | cons hR hrest ih =>
    rcases List.mem_cons.1 ha with rfl | ha'
    · exact ⟨_, List.mem_cons_self _ _, hR⟩
    · obtain ⟨i, hi, hIA⟩ := ih ha'
      exact ⟨i, List.mem_cons_of_mem _ hi, hIA⟩

theorem nodup_of_forall₂_idxAt {α : Type} {items : List α} {used : List Nat} {chosen : List α}
    (hnd : items.Nodup) (h : List.Forall₂ (IdxAt items) used chosen) (hu : used.Nodup) :
    chosen.Nodup := by
  induction h with
  | nil => exact List.nodup_nil
  | @cons i a used' chosen' hR hrest ih =>
    rw [List.nodup_cons] at hu ⊢
    refine ⟨?_, ih hu.2⟩
    intro ha
    obtain ⟨j, hj, hIA⟩ := forall₂_mem_right hrest ha
    have : i = j := by
      have h1 : items.get? i = some a := hR
      have h2 : items.get? j = some a := hIA
      have hi : i < items.length := List.get?_eq_some.1 h1 |>.choose
      have hjlt : j < items.length := List.get?_eq_some.1 h2 |>.choose
      rw [List.get?_eq_get hi] at h1
      rw [List.get?_eq_get hjlt] at h2
      have heq : items.get ⟨i, hi⟩ = items.get ⟨j, hjlt⟩ := by
        apply Option.some_injective
        rw [h1, h2]
      have hfin := (List.Nodup.get_inj_iff hnd).1 heq
      exact congrArg Fin.val hfin
    exact hu.1 (this ▸ hj)

/-- Core loop invariant result: if the loop returns, the result pairs with a
duplicate-free list of in-range indices and has length exactly `count`. -/
theorem pickRandomGo_spec {α : Type} (items : List α) (count : Nat) (tape : Nat → Nat) :
    ∀ (fuel k : Nat) (used : List Nat) (chosen res : List α),
      List.Forall₂ (IdxAt items) used chosen → used.Nodup →
      chosen.length ≤ count → count < items.length →
      pickRandomGo items count tape fuel k used chosen = some res →
      ∃ used', List.Forall₂ (IdxAt items) used' res ∧ used'.Nodup ∧ res.length = count := by
  intro fuel
  induction fuel with
  | zero => intro k used chosen res _ _ _ _ h; simp [pickRandomGo] at h
  | succ fuel ih =>
    intro k used chosen res hF hu hlen hcount h
    have hlens := List.Forall₂.length_eq hF
    rw [pickRandomGo] at h
    by_cases hloop : chosen.length < count ∧ used.length < items.length
    · rw [if_pos hloop] at h
      set idx := tape k % items.length with hidx
      by_cases hin : idx ∈ used
      · rw [if_pos hin] at h
        exact ih (k + 1) used chosen res hF hu hlen hcount h
      · have hlt : idx < items.length :=
          Nat.mod_lt _ (Nat.lt_of_le_of_lt (Nat.zero_le _) hcount)
        rw [if_neg hin, dif_pos hlt] at h
        refine ih (k + 1) (used ++ [idx]) (chosen ++ [items.get ⟨idx, hlt⟩]) res ?_ ?_ ?_ hcount h
        · exact List.rel_append hF
            (List.Forall₂.cons (by simp [IdxAt, List.get?_eq_get hlt]) List.Forall₂.nil)
        · simp [List.nodup_append, hu, hin]
        · simpa using hloop.1
    · rw [if_neg hloop] at h
      obtain rfl : chosen = res := Option.some_injective _ h
      push_neg at hloop
      have : ¬ chosen.length < count := by
        intro hc
        have := hloop hc
        omega
      have hceq : chosen.length = count := Nat.le_antisymm hlen (Nat.not_lt.1 this)
      exact ⟨used, hF, hu, hceq⟩

/-- If `pickRandom` returns, the result has length `min count items.length`. -/
theorem pickRandom_length {α : Type} (items : List α) (count : Nat) (tape : Nat → Nat)
    (fuel : Nat) (res : List α) (h : pickRandom items count tape fuel = some res) :
    res.length = min count items.length := by
  unfold pickRandom at h
  by_cases hle : items.length ≤ count
  · rw [if_pos hle] at h
    obtain rfl : items = res := Option.some_injective _ h
    omega
  · rw [if_neg hle] at h
    push_neg at hle
    obtain ⟨used', _, _, hlen⟩ :=
      pickRandomGo_spec items count tape fuel 0 [] [] res List.Forall₂.nil List.nodup_nil
        (Nat.zero_le _) hle h
    omega

/-- C1. For every duplicate-free file list (the cache's file lists are
deduplicated) of length `L` and every requested count `C ≥ 0`, a terminating
run of `pickRandom(items, C)` returns exactly `min C L` elements, all members
of the input list, none of them twice; and when `C ≥ L` the result is the whole
list (every element exactly once). -/
theorem pickRandom_draws {α : Type} (items : List α) (count : Nat) (tape : Nat → Nat)
    (fuel : Nat) (res : List α) (hnd : items.Nodup)
    (h : pickRandom items count tape fuel = some res) :
    res.length = min count items.length ∧ (∀ a ∈ res, a ∈ items) ∧ res.Nodup ∧
      (items.length ≤ count → res = items) := by
  have hlen := pickRandom_length items count tape fuel res h
  unfold pickRandom at h
  by_cases hle : items.length ≤ count
  · rw [if_pos hle] at h
    obtain rfl : items = res := Option.some_injective _ h
    exact ⟨hlen, fun a ha => ha, hnd, fun _ => rfl⟩
  · rw [if_neg hle] at h
    push_neg at hle
    obtain ⟨used', hF, hu, _⟩ :=
      pickRandomGo_spec items count tape fuel 0 [] [] res List.Forall₂.nil List.nodup_nil
        (Nat.zero_le _) hle h
    refine ⟨hlen, ?_, nodup_of_forall₂_idxAt hnd hF hu, fun hc => absurd hc (by omega)⟩
    intro a ha
    obtain ⟨i, _, hIA⟩ := forall₂_mem_right hF ha
    exact List.get?_mem hIA

theorem pickRandom_draws_witness :
    ([0, 1, 2, 3] : List Nat).Nodup ∧
      ((some [0, 1] : Option (List Nat)).get rfl).length = min 2 4 ∧
      (∀ a ∈ [0, 1], a ∈ ([0, 1, 2, 3] : List Nat)) ∧
      ([0, 1] : List Nat).Nodup := by
  have h := pickRandom_draws [0, 1, 2, 3] 2 (fun k => k) 5 [0, 1] (by decide) (by decide)
  exact ⟨by decide, by simp [h.1], h.2.1, h.2.2.1⟩

/-! ## Termination of the sampling loop (C7) -/

/-- The successive values `randomInt(n)` would deliver for the first `fuel`
draws of a given random tape. -/
def residues (tape : Nat → Nat) (n fuel : Nat) : List Nat :=
  (List.range fuel).map (fun k => tape k % n)

theorem residues_succ (tape : Nat → Nat) (n fuel : Nat) :
    residues tape n (fuel + 1) = residues tape n fuel ++ [tape fuel % n] := by
  simp [residues, List.range_succ]

/-- Two duplicate-free lists with the same members have the same length. -/
theorem length_eq_of_nodup_of_mem_iff {l l' : List Nat} (h : l.Nodup) (h' : l'.Nodup)
    (hm : ∀ x, x ∈ l ↔ x ∈ l') : l.length = l'.length := by
  have hc1 := List.toFinset_card_of_nodup h
  have hc2 := List.toFinset_card_of_nodup h'
  have hset : l.toFinset = l'.toFinset := by
    ext x
    simp only [List.mem_toFinset]
    exact hm x
  rw [hset] at hc1
  omega

/-- Loop-termination lemma: if the next `fuel` tape positions contain at least
`count` distinct residues beyond those already drawn, the loop finishes. -/
theorem pickRandomGo_terminates {α : Type} (items : List α) (count : Nat) (tape : Nat → Nat)
    (hcount : count < items.length) :
    ∀ (fuel k : Nat) (used : List Nat) (chosen : List α),
      List.Forall₂ (IdxAt items) used chosen → used.Nodup →
      chosen.length ≤ count →
      (∀ i, i ∈ used ↔ i ∈ residues tape items.length k) →
      count ≤ (residues tape items.length (k + fuel)).dedup.length →
      ∃ res, pickRandomGo items count tape (fuel + 1) k used chosen = some res := by
  intro fuel
  induction fuel with
  | zero =>
    intro k used chosen hF hu hlen hmem hfair
    have hlens := List.Forall₂.length_eq hF
    rw [pickRandomGo]
    by_cases hloop : chosen.length < count ∧ used.length < items.length
    · exfalso
      have hud : used.length = (residues tape items.length k).dedup.length :=
        length_eq_of_nodup_of_mem_iff hu (List.nodup_dedup _)
          (fun x => (hmem x).trans (List.mem_dedup).symm)
      simp only [Nat.add_zero] at hfair
      omega
    · rw [if_neg hloop]
      exact ⟨chosen, rfl⟩
  | succ fuel ih =>
    intro k used chosen hF hu hlen hmem hfair
    have hlens := List.Forall₂.length_eq hF
    rw [pickRandomGo]
    by_cases hloop : chosen.length < count ∧ used.length < items.length
    · rw [if_pos hloop]
      set idx := tape k % items.length with hidx
      have hmem' : ∀ i, i ∈ used ∨ i = idx ↔ i ∈ residues tape items.length (k + 1) := by
        intro i
        rw [residues_succ]
        simp only [List.mem_append, List.mem_singleton]
        exact or_congr (hmem i) Iff.rfl
      have hfair' : count ≤ (residues tape items.length (k + 1 + fuel)).dedup.length := by
        have : k + 1 + fuel = k + (fuel + 1) := by omega
        rw [this]
        exact hfair
      by_cases hin : idx ∈ used
      · rw [if_pos hin]
        refine ih (k + 1) used chosen hF hu hlen (fun i => ?_) hfair'
        rw [← hmem' i]
        constructor
        · exact fun hi => Or.inl hi
        · rintro (hi | rfl)
          · exact hi
          · exact hin
      · have hlt : idx < items.length :=
          Nat.mod_lt _ (Nat.lt_of_le_of_lt (Nat.zero_le _) hcount)
        rw [if_neg hin, dif_pos hlt]
        refine ih (k + 1) (used ++ [idx]) (chosen ++ [items.get ⟨idx, hlt⟩]) ?_ ?_ ?_
          (fun i => ?_) hfair'
        · exact List.rel_append hF
            (List.Forall₂.cons (by simp [IdxAt, List.get?_eq_get hlt]) List.Forall₂.nil)
        · simp [List.nodup_append, hu, hin]
        · simpa using hloop.1
        · rw [← hmem' i]
          simp only [List.mem_append, List.mem_singleton]
    · rw [if_neg hloop]
      exact ⟨chosen, rfl⟩

/-- C7. Under the caller-side cap `count ≤ len(items)` the sampling loop
terminates: on any random tape whose first `fuel` draws contain at least
`count` distinct indices (a uniformly random tape does so with probability one
for some `fuel`), `pickRandom` finishes with exactly `count` distinct
elements collected. -/
theorem pickRandom_terminates {α : Type} (items : List α) (count : Nat) (tape : Nat → Nat)
    (fuel : Nat) (hc : count ≤ items.length)
    (hfair : count ≤ (residues tape items.length fuel).dedup.length) :
    ∃ res, pickRandom items count tape (fuel + 1) = some res ∧ res.length = count := by
  unfold pickRandom
  by_cases hle : items.length ≤ count
  · rw [if_pos hle]
    exact ⟨items, rfl, by omega⟩
  · rw [if_neg hle]
    push_neg at hle
    obtain ⟨res, hres⟩ :=
      pickRandomGo_terminates items count tape hle fuel 0 [] [] List.Forall₂.nil
        List.nodup_nil (Nat.zero_le _) (by simp [residues]) (by simpa using hfair)
    refine ⟨res, hres, ?_⟩
    obtain ⟨used', _, _, hlen⟩ :=
      pickRandomGo_spec items count tape (fuel + 1) 0 [] [] res List.Forall₂.nil
        List.nodup_nil (Nat.zero_le _) hle hres
    exact hlen

theorem pickRandom_terminates_witness :
    2 ≤ ([10, 20, 30] : List Nat).length ∧
      2 ≤ ((residues (fun k => k) 3 2).dedup).length ∧
      ∃ res, pickRandom ([10, 20, 30] : List Nat) 2 (fun k => k) 3 = some res ∧
        res.length = 2 := by
  refine ⟨by decide, by decide, ?_⟩
  exact pickRandom_terminates [10, 20, 30] 2 (fun k => k) 2 (by decide) (by decide)

/-! ## Array identity model for the sampler (C10)

JavaScript array identity is modelled by a heap of arrays addressed by index:
a reference is an index into the heap, `[...items]` appends a copy of the
referenced contents as a fresh array, and `pickRandom`'s loop branch allocates
the fresh `picked = []` array that it pushes into and returns. `pickRandom`
performs no write to any existing heap cell in either branch, exactly as the
source only reads `source[index]` and pushes onto its own new array. -/

/-- The spread copy `[...items]`: allocate a fresh array holding the same
contents, returning the new heap and the fresh reference. -/
def spreadCopy {α : Type} (heap : List (List α)) (r : Nat) : List (List α) × Nat :=
  (heap ++ [heap.getD r []], heap.length)

/-- Models `pickRandom` acting on an array reference: both branches return a freshly
allocated array and leave every existing heap cell untouched. -/
def pickRandomAlloc {α : Type} (heap : List (List α)) (r : Nat) (count : Nat)
    (tape : Nat → Nat) (fuel : Nat) : Option (List (List α) × Nat) :=
  let items := heap.getD r []
  if items.length ≤ count then some (spreadCopy heap r)
  else
    match pickRandomGo items count tape fuel 0 [] [] with
    | none => none
    | some chosen => some (heap ++ [chosen], heap.length)

/-- C10. `pickRandom` never mutates the input array and returns a freshly
allocated array: the returned reference differs from the input reference (even
in the `count ≥ length` branch, which copies), every pre-existing heap cell is
unchanged, and the fresh cell holds exactly the value-level `pickRandom`
result. -/
theorem pickRandom_no_mutation {α : Type} (heap : List (List α)) (r count : Nat)
    (tape : Nat → Nat) (fuel : Nat) (heap' : List (List α)) (r' : Nat)
    (hr : r < heap.length)
    (h : pickRandomAlloc heap r count tape fuel = some (heap', r')) :
    r' ≠ r ∧ (∀ i, i < heap.length → heap'.getD i [] = heap.getD i []) ∧
      heap'.length = heap.length + 1 ∧
      pickRandom (heap.getD r []) count tape fuel = some (heap'.getD r' []) := by
  have hcell : ∀ (xs : List α) (i : Nat), i < heap.length →
      (heap ++ [xs]).getD i [] = heap.getD i [] := by
    intro xs i hi
    unfold List.getD
    rw [List.get?_append hi]
  have hfresh : ∀ (xs : List α), (heap ++ [xs]).getD heap.length [] = xs := by
    intro xs
    unfold List.getD
    rw [List.get?_concat_length]
    rfl
  unfold pickRandomAlloc at h
  simp only at h
  by_cases hle : (heap.getD r []).length ≤ count
  · rw [if_pos hle] at h
    unfold spreadCopy at h
    obtain ⟨rfl, rfl⟩ : heap ++ [heap.getD r []] = heap' ∧ heap.length = r' := by
      have := Prod.mk.injEq (heap ++ [heap.getD r []]) heap.length heap' r' ▸
        congrArg id (Option.some_injective _ h)
      exact ⟨congrArg Prod.fst (Option.some_injective _ h),
        congrArg Prod.snd (Option.some_injective _ h)⟩
    refine ⟨by omega, fun i hi => hcell _ i hi, by simp, ?_⟩
    rw [hfresh]
    unfold pickRandom
    rw [if_pos hle]
  · rw [if_neg hle] at h
    rcases hgo : pickRandomGo (heap.getD r []) count tape fuel 0 [] [] with _ | chosen
    · rw [hgo] at h
      simp at h
    · rw [hgo] at h
      obtain rfl : heap ++ [chosen] = heap' := congrArg Prod.fst (Option.some_injective _ h)
      obtain rfl : heap.length = r' := congrArg Prod.snd (Option.some_injective _ h)
      refine ⟨by omega, fun i hi => hcell _ i hi, by simp, ?_⟩
      rw [hfresh]
      unfold pickRandom
      rw [if_neg hle]
      exact hgo

theorem pickRandom_no_mutation_witness :
    (0 : Nat) < ([[1, 2, 3]] : List (List Nat)).length ∧
      ∃ heap' r', pickRandomAlloc ([[1, 2, 3]] : List (List Nat)) 0 5 (fun k => k) 4 =
          some (heap', r') ∧ r' ≠ 0 ∧ heap'.getD 0 [] = [1, 2, 3] := by
  refine ⟨by decide, [[1, 2, 3], [1, 2, 3]], 1, by decide, ?_, ?_⟩
  · have h := pickRandom_no_mutation ([[1, 2, 3]] : List (List Nat)) 0 5 (fun k => k) 4
      [[1, 2, 3], [1, 2, 3]] 1 (by decide) (by decide)
    exact h.1
  · decide

/-! ## Directory scanner (`collectImages`)

Source: part_000 lines 71–98. `collectImages(dir, recursive, seen)` records
`dir` in `directories` first, then reads the listing (a read failure yields the
partial result), and for each entry: a directory entry is recursed into when
`recursive` holds and its joined path is not in the mutable `seen` set (which
is updated before recursing and threads through the whole walk); non-file,
non-directory entries (symbolic links, sockets) are skipped; a file entry is
added when its lower-cased extension is recognized. The recursion carries fuel
(`none` = fuel exhausted), which `collectImages_isSome` discharges below. -/

/-- Result of one scan: the image files found and the directories visited
(both JavaScript `Set`s, i.e. insertion-ordered duplicate-free lists). -/
structure ScanResult where
  files : List Path
  directories : List Path
deriving DecidableEq

/-- The `for (const entry of entries)` loop body of `collectImages`, with the
recursive call abstracted as `go` and the mutable `files`, `directories` and
`seen` sets threaded through. -/
def scanStep (go : Path → List Path → Option (ScanResult × List Path))
    (recursive : Bool) (dir : Path) :
    List Dirent → List Path → List Path → List Path →
      Option (List Path × List Path × List Path)
  | [], files, dirs, seen => some (files, dirs, seen)
  | e :: rest, files, dirs, seen =>
    let full := dir ++ [e.name]
    match e.kind with
    | EntryKind.directory =>
      if recursive = true ∧ full ∉ seen then
        match go full (setAdd seen full) with
        | none => none
        | some (r, seen') =>
          scanStep go recursive dir rest (setUnion files r.files)
            (setUnion dirs r.directories) seen'
      else scanStep go recursive dir rest files dirs seen
    | EntryKind.file =>
      if isImageName e.name then
        scanStep go recursive dir rest (setAdd files full) dirs seen
      else scanStep go recursive dir rest files dirs seen
    | _ => scanStep go recursive dir rest files dirs seen

/-- Models `collectImages(dir, recursive, seen)`, with fuel bounding the directory
nesting depth the walk may descend (each level consumes one unit). -/
def collectImages (fsys : FS) (recursive : Bool) :
    Nat → Path → List Path → Option (ScanResult × List Path)
  | 0, _, _ => none
  | fuel + 1, dir, seen =>
    match lookupFS fsys dir with
    | none => some (⟨[], [dir]⟩, seen)
    | some es =>
      match scanStep (collectImages fsys recursive fuel) recursive dir es [] [dir] seen with
      | none => none
      | some (files, dirs, seen') => some (⟨files, dirs⟩, seen')

/-- The longest path (in segments) bound to a listing in the filesystem. -/
def maxKeyLen (fsys : FS) : Nat :=
  (fsys.map (fun kv => kv.1.length)).foldr Nat.max 0

/-- Fuel that always suffices for a full walk: nesting can only continue
through paths that have listings, whose segment length `maxKeyLen` bounds. -/
def scanFuel (fsys : FS) : Nat := maxKeyLen fsys + 2

/-- Directory reachability through real (non-symlink) directory entries, the
only entries `readdir` reports as directories and the scanner recurses into. -/
inductive Reaches (fsys : FS) : Path → Path → Prop
  | refl (d : Path) : Reaches fsys d d
  | step {d d' : Path} {es : List Dirent} {n : String} :
      lookupFS fsys d = some es → Dirent.mk n EntryKind.directory ∈ es →
      Reaches fsys (d ++ [n]) d' → Reaches fsys d d'

/-- The regular files under `root` (through real directory entries) whose
lower-cased extension is recognized: the set the scanned file set should equal. -/
def ReachesImageFile (fsys : FS) (root p : Path) : Prop :=
  ∃ d es n, Reaches fsys root d ∧ lookupFS fsys d = some es ∧
    Dirent.mk n EntryKind.file ∈ es ∧ isImageName n = true ∧ p = d ++ [n]

/-- Reachability that additionally follows symbolic links to their targets
(what a scanner that resolved links would traverse). -/
inductive ReachesSym (fsys : FS) : Path → Path → Prop
  | refl (d : Path) : ReachesSym fsys d d
  | step {d d' : Path} {es : List Dirent} {n : String} :
      lookupFS fsys d = some es → Dirent.mk n EntryKind.directory ∈ es →
      ReachesSym fsys (d ++ [n]) d' → ReachesSym fsys d d'
  | link {d d' t : Path} {es : List Dirent} {n : String} :
      lookupFS fsys d = some es → Dirent.mk n (EntryKind.symlink t) ∈ es →
      ReachesSym fsys t d' → ReachesSym fsys d d'

/-- A matching file reachable from `root` once links are followed. -/
def ReachesImageFileSym (fsys : FS) (root p : Path) : Prop :=
  ∃ d es n, ReachesSym fsys root d ∧ lookupFS fsys d = some es ∧
    Dirent.mk n EntryKind.file ∈ es ∧ isImageName n = true ∧ p = d ++ [n]

/-- Predicate: `q` lies strictly below `d`: `q = d ++ t` for a nonempty segment list `t`. -/
def properBelow (d q : Path) : Prop := ∃ t, t ≠ [] ∧ q = d ++ t

/-- A filesystem whose listings carry no duplicate entry names (true of every
real directory). -/
def WFListing (fsys : FS) : Prop :=
  ∀ kv ∈ fsys, ((kv.2).map Dirent.name).Nodup

instance : DecidablePred (WFListing) := fun fsys =>
  List.decidableBAll _ fsys

theorem properBelow_irrefl (d : Path) : ¬ properBelow d d := by
  rintro ⟨t, ht, he⟩
  have h2 := congrArg List.length he
  simp at h2
  exact ht h2

theorem properBelow_child (d : Path) (n : String) : properBelow d (d ++ [n]) :=
  ⟨[n], by simp, rfl⟩

theorem properBelow_trans {d q r : Path} (h1 : properBelow d q) (h2 : properBelow q r) :
    properBelow d r := by
  obtain ⟨t1, ht1, rfl⟩ := h1
  obtain ⟨t2, ht2, rfl⟩ := h2
  exact ⟨t1 ++ t2, by simp [ht1], by simp⟩

theorem properBelow_length {d q : Path} (h : properBelow d q) : d.length < q.length := by
  obtain ⟨t, ht, rfl⟩ := h
  have : t.length ≠ 0 := fun h0 => ht (List.length_eq_zero.1 h0)
  simp
  omega

/-- Children of distinct names are unrelated: a path strictly below
`d ++ [n]` or equal to it never equals `d ++ [m]` or lies below it when
`n ≠ m`. -/
theorem child_paths_disjoint {d : Path} {n m : String} (hnm : n ≠ m) {q : Path}
    (hq : q = d ++ [n] ∨ properBelow (d ++ [n]) q) :
    ¬ (q = d ++ [m] ∨ properBelow (d ++ [m]) q) := by
  rintro (rfl | hqm)
  · rcases hq with heq | hb
    · have hmn : m = n := by simpa using List.append_inj_right heq rfl
      exact hnm hmn.symm
    · have hlt := properBelow_length hb
      simp at hlt
  · rcases hq with rfl | hb
    · have hlt := properBelow_length hqm
      simp at hlt
    · obtain ⟨t1, ht1, rfl⟩ := hb
      obtain ⟨t2, ht2, he⟩ := hqm
      rw [List.append_assoc, List.append_assoc] at he
      have hinj := List.append_inj_right he rfl
      have hhd : ([n] ++ t1).head? = ([m] ++ t2).head? := congrArg List.head? hinj
      simp at hhd
      exact hnm hhd

/-! ### Scanner lemmas -/

theorem scanStep_mono {go : Path → List Path → Option (ScanResult × List Path)}
    {recursive : Bool} {dir : Path} :
    ∀ {es : List Dirent} {files dirs seen : List Path}
      {out : List Path × List Path × List Path},
      scanStep go recursive dir es files dirs seen = some out →
      files ⊆ out.1 ∧ dirs ⊆ out.2.1 := by
  intro es
  induction es with
  | nil =>
    intro files dirs seen out h
    simp only [scanStep] at h
    obtain rfl := Option.some_injective _ h
    exact ⟨fun _ hx => hx, fun _ hx => hx⟩
  | cons e rest ih =>
    intro files dirs seen out h
    obtain ⟨nm, kd⟩ := e
    cases kd with
    | directory =>
      simp only [scanStep] at h
      by_cases hc : recursive = true ∧ dir ++ [nm] ∉ seen
      · rw [if_pos hc] at h
        rcases hgo : go (dir ++ [nm]) (setAdd seen (dir ++ [nm])) with _ | rs
        · rw [hgo] at h; exact absurd h (by simp)
        · obtain ⟨r, seen'⟩ := rs
          rw [hgo] at h
          obtain ⟨h1, h2⟩ := ih h
          exact ⟨(subset_setUnion_left _ _).trans h1, (subset_setUnion_left _ _).trans h2⟩
      · rw [if_neg hc] at h
        exact ih h
    | file =>
      simp only [scanStep] at h
      by_cases hi : isImageName nm
      · rw [if_pos hi] at h
        obtain ⟨h1, h2⟩ := ih h
        exact ⟨(subset_setAdd _ _).trans h1, h2⟩
      · rw [if_neg hi] at h
        exact ih h
    | symlink t =>
      simp only [scanStep] at h
      exact ih h
    | other =>
      simp only [scanStep] at h
      exact ih h

theorem scanStep_nodup {go : Path → List Path → Option (ScanResult × List Path)}
    {recursive : Bool} {dir : Path} :
    ∀ {es : List Dirent} {files dirs seen : List Path}
      {out : List Path × List Path × List Path},
      scanStep go recursive dir es files dirs seen = some out →
      files.Nodup → dirs.Nodup → out.1.Nodup ∧ out.2.1.Nodup := by
  intro es
  induction es with
  | nil =>
    intro files dirs seen out h hf hd
    simp only [scanStep] at h
    obtain rfl := Option.some_injective _ h
    exact ⟨hf, hd⟩
  | cons e rest ih =>
    intro files dirs seen out h hf hd
    obtain ⟨nm, kd⟩ := e
    cases kd with
    | directory =>
      simp only [scanStep] at h
      by_cases hc : recursive = true ∧ dir ++ [nm] ∉ seen
      · rw [if_pos hc] at h
        rcases hgo : go (dir ++ [nm]) (setAdd seen (dir ++ [nm])) with _ | rs
        · rw [hgo] at h; exact absurd h (by simp)
        · obtain ⟨r, seen'⟩ := rs
          rw [hgo] at h
          exact ih h (nodup_setUnion hf _) (nodup_setUnion hd _)
      · rw [if_neg hc] at h
        exact ih h hf hd
    | file =>
      simp only [scanStep] at h
      by_cases hi : isImageName nm
      · rw [if_pos hi] at h
        exact ih h (nodup_setAdd hf _) hd
      · rw [if_neg hi] at h
        exact ih h hf hd
    | symlink t =>
      simp only [scanStep] at h
      exact ih h hf hd
    | other =>
      simp only [scanStep] at h
      exact ih h hf hd

theorem scanStep_scope {go : Path → List Path → Option (ScanResult × List Path)}
    {recursive : Bool} {dir : Path}
    (hgo : ∀ (n : String) (s : List Path) (r : ScanResult) (s' : List Path),
      go (dir ++ [n]) s = some (r, s') →
      s ⊆ s' ∧ ∀ q ∈ s', q ∈ s ∨ q = dir ++ [n] ∨ properBelow (dir ++ [n]) q) :
    ∀ {es : List Dirent} {files dirs seen : List Path}
      {out : List Path × List Path × List Path},
      scanStep go recursive dir es files dirs seen = some out →
      seen ⊆ out.2.2 ∧ ∀ q ∈ out.2.2, q ∈ seen ∨ properBelow dir q := by
  intro es
  induction es with
  | nil =>
    intro files dirs seen out h
    simp only [scanStep] at h
    obtain rfl := Option.some_injective _ h
    exact ⟨fun _ hx => hx, fun _ hx => Or.inl hx⟩
  | cons e rest ih =>
    intro files dirs seen out h
    obtain ⟨nm, kd⟩ := e
    cases kd with
    | directory =>
      simp only [scanStep] at h
      by_cases hc : recursive = true ∧ dir ++ [nm] ∉ seen
      · rw [if_pos hc] at h
        rcases hgo' : go (dir ++ [nm]) (setAdd seen (dir ++ [nm])) with _ | rs
        · rw [hgo'] at h; exact absurd h (by simp)
        · obtain ⟨r, seen'⟩ := rs
          rw [hgo'] at h
          obtain ⟨hs1, hs2⟩ := hgo nm _ r seen' hgo'
          obtain ⟨ht1, ht2⟩ := ih h
          constructor
          · exact ((subset_setAdd seen _).trans hs1).trans ht1
          · intro q hq
            rcases ht2 q hq with hq' | hqb
            · rcases hs2 q hq' with hq'' | rfl | hqb'
              · rcases mem_setAdd.1 hq'' with hq3 | rfl
                · exact Or.inl hq3
                · exact Or.inr (properBelow_child dir nm)
              · exact Or.inr (properBelow_child dir nm)
              · exact Or.inr (properBelow_trans (properBelow_child dir nm) hqb')
            · exact Or.inr hqb
      · rw [if_neg hc] at h
        exact ih h
    | file =>
      simp only [scanStep] at h
      by_cases hi : isImageName nm
      · rw [if_pos hi] at h
        exact ih h
      · rw [if_neg hi] at h
        exact ih h
    | symlink t =>
      simp only [scanStep] at h
      exact ih h
    | other =>
      simp only [scanStep] at h
      exact ih h

/-- One-step unfolding of `collectImages`. -/
theorem collectImages_succ (fsys : FS) (recursive : Bool) (fuel : Nat) (dir : Path)
    (seen : List Path) :
    collectImages fsys recursive (fuel + 1) dir seen =
      match lookupFS fsys dir with
      | none => some (⟨[], [dir]⟩, seen)
      | some es =>
        match scanStep (collectImages fsys recursive fuel) recursive dir es [] [dir] seen with
        | none => none
        | some (files, dirs, seen') => some (⟨files, dirs⟩, seen') := rfl

/-- Case analysis on one successful level of `collectImages`. -/
theorem collectImages_cases (fsys : FS) (recursive : Bool) (fuel : Nat) (dir : Path)
    (seen : List Path) (r : ScanResult) (s' : List Path)
    (h : collectImages fsys recursive (fuel + 1) dir seen = some (r, s')) :
    (lookupFS fsys dir = none ∧ r = ⟨[], [dir]⟩ ∧ s' = seen) ∨
    (∃ es files dirs, lookupFS fsys dir = some es ∧
      scanStep (collectImages fsys recursive fuel) recursive dir es [] [dir] seen =
        some (files, dirs, s') ∧ r = ⟨files, dirs⟩) := by
  rw [collectImages] at h
  split at h
  · rename_i hlk
    simp only [Option.some.injEq, Prod.mk.injEq] at h
    exact Or.inl ⟨hlk, h.1.symm, h.2.symm⟩
  · rename_i es hlk
    split at h
    · exact absurd h (by simp)
    · rename_i out files dirs seen2 hsc
      simp only [Option.some.injEq, Prod.mk.injEq] at h
      obtain ⟨h1, h2⟩ := h
      subst h2
      exact Or.inr ⟨es, files, dirs, hlk, hsc, h1.symm⟩

/-- The `seen` set only grows during a scan, and every added path lies strictly
below the scanned directory. -/
theorem collectImages_scope (fsys : FS) (recursive : Bool) :
    ∀ (fuel : Nat) (dir : Path) (seen : List Path) (r : ScanResult) (s' : List Path),
      collectImages fsys recursive fuel dir seen = some (r, s') →
      seen ⊆ s' ∧ ∀ q ∈ s', q ∈ seen ∨ properBelow dir q := by
  intro fuel
  induction fuel with
  | zero => intro dir seen r s' h; simp [collectImages] at h
  | succ fuel ih =>
    intro dir seen r s' h
    rcases collectImages_cases fsys recursive fuel dir seen r s' h with
      ⟨_, _, rfl⟩ | ⟨es, files, dirs, hlk, hsc, rfl⟩
    · exact ⟨fun _ hx => hx, fun _ hx => Or.inl hx⟩
    · have hgo : ∀ (n : String) (s : List Path) (r' : ScanResult) (s2 : List Path),
          collectImages fsys recursive fuel (dir ++ [n]) s = some (r', s2) →
          s ⊆ s2 ∧ ∀ q ∈ s2, q ∈ s ∨ q = dir ++ [n] ∨ properBelow (dir ++ [n]) q := by
        intro n s r' s2 hc
        obtain ⟨h1, h2⟩ := ih (dir ++ [n]) s r' s2 hc
        exact ⟨h1, fun q hq => (h2 q hq).imp id Or.inr⟩
      exact scanStep_scope hgo hsc

/-- The scanned file and directory sets are duplicate-free. -/
theorem collectImages_nodup (fsys : FS) (recursive : Bool) :
    ∀ (fuel : Nat) (dir : Path) (seen : List Path) (r : ScanResult) (s' : List Path),
      collectImages fsys recursive fuel dir seen = some (r, s') →
      r.files.Nodup ∧ r.directories.Nodup := by
  intro fuel
  induction fuel with
  | zero => intro dir seen r s' h; simp [collectImages] at h
  | succ fuel _ =>
    intro dir seen r s' h
    rcases collectImages_cases fsys recursive fuel dir seen r s' h with
      ⟨_, rfl, _⟩ | ⟨es, files, dirs, hlk, hsc, rfl⟩
    · exact ⟨List.nodup_nil, List.nodup_singleton _⟩
    · exact scanStep_nodup hsc List.nodup_nil (List.nodup_singleton _)

/-- Exactly-once from a duplicate-free list, stated for whichever `BEq`
instance `List.count` elaborates with. -/
theorem count_eq_one_of_nodup_mem : ∀ {l : List Path} {p : Path},
    l.Nodup → p ∈ l → l.count p = 1 := by
  intro l
  induction l with
  | nil => intro p _ hm; simp at hm
  | cons a t ih =>
    intro p hnd hm
    rcases List.mem_cons.1 hm with rfl | hm'
    · rw [List.count_cons_self]
      have hnt : p ∉ t := (List.nodup_cons.1 hnd).1
      rw [List.count_eq_zero.2 hnt]
    · rw [List.count_cons_of_ne, ih (List.nodup_cons.1 hnd).2 hm']
      intro hpa
      exact (List.nodup_cons.1 hnd).1 (hpa ▸ hm')

theorem reachesImageFile_lift {fsys : FS} {dir : Path} {n : String} {es₀ : List Dirent}
    {p : Path} (hlk : lookupFS fsys dir = some es₀)
    (hn : Dirent.mk n EntryKind.directory ∈ es₀)
    (h : ReachesImageFile fsys (dir ++ [n]) p) : ReachesImageFile fsys dir p := by
  obtain ⟨d, es, m, hr, hlkd, hm, him, rfl⟩ := h
  exact ⟨d, es, m, Reaches.step hlk hn hr, hlkd, hm, him, rfl⟩

/-- Soundness of the entry loop: every collected file either was already in the
accumulator or is a matching file reachable from `dir`. -/
theorem scanStep_sound {fsys : FS} {go : Path → List Path → Option (ScanResult × List Path)}
    {recursive : Bool} {dir : Path} {es₀ : List Dirent}
    (hlk : lookupFS fsys dir = some es₀)
    (hgo : ∀ (n : String) (s : List Path) (r : ScanResult) (s' : List Path),
      go (dir ++ [n]) s = some (r, s') →
      ∀ p ∈ r.files, ReachesImageFile fsys (dir ++ [n]) p) :
    ∀ {es : List Dirent} {files dirs seen : List Path}
      {out : List Path × List Path × List Path},
      es ⊆ es₀ →
      scanStep go recursive dir es files dirs seen = some out →
      ∀ p ∈ out.1, p ∈ files ∨ ReachesImageFile fsys dir p := by
  intro es
  induction es with
  | nil =>
    intro files dirs seen out _ h p hp
    simp only [scanStep] at h
    obtain rfl := Option.some_injective _ h
    exact Or.inl hp
  | cons e rest ih =>
    intro files dirs seen out hsub h p hp
    have hsub' : rest ⊆ es₀ := fun x hx => hsub (List.mem_cons_of_mem _ hx)
    obtain ⟨nm, kd⟩ := e
    cases kd with
    | directory =>
      simp only [scanStep] at h
      by_cases hc : recursive = true ∧ dir ++ [nm] ∉ seen
      · rw [if_pos hc] at h
        rcases hgo' : go (dir ++ [nm]) (setAdd seen (dir ++ [nm])) with _ | rs
        · rw [hgo'] at h; exact absurd h (by simp)
        · obtain ⟨r, seen'⟩ := rs
          rw [hgo'] at h
          rcases ih hsub' h p hp with hin | hre
          · rcases mem_setUnion.1 hin with hin' | hin'
            · exact Or.inl hin'
            · exact Or.inr (reachesImageFile_lift hlk (hsub (List.mem_cons_self _ _))
                (hgo nm _ r seen' hgo' p hin'))
          · exact Or.inr hre
      · rw [if_neg hc] at h
        exact ih hsub' h p hp
    | file =>
      simp only [scanStep] at h
      by_cases hi : isImageName nm
      · rw [if_pos hi] at h
        rcases ih hsub' h p hp with hin | hre
        · rcases mem_setAdd.1 hin with hin' | rfl
          · exact Or.inl hin'
          · exact Or.inr ⟨dir, es₀, nm, Reaches.refl dir, hlk,
              hsub (List.mem_cons_self _ _), hi, rfl⟩
        · exact Or.inr hre
      · rw [if_neg hi] at h
        exact ih hsub' h p hp
    | symlink t =>
      simp only [scanStep] at h
      exact ih hsub' h p hp
    | other =>
      simp only [scanStep] at h
      exact ih hsub' h p hp

/-- Soundness of the scanner: every file it returns is a matching regular file
reachable from the scanned directory through real directory entries. -/
theorem collectImages_sound (fsys : FS) (recursive : Bool) :
    ∀ (fuel : Nat) (dir : Path) (seen : List Path) (r : ScanResult) (s' : List Path),
      collectImages fsys recursive fuel dir seen = some (r, s') →
      ∀ p ∈ r.files, ReachesImageFile fsys dir p := by
  intro fuel
  induction fuel with
  | zero => intro dir seen r s' h; simp [collectImages] at h
  | succ fuel ih =>
    intro dir seen r s' h p hp
    rcases collectImages_cases fsys recursive fuel dir seen r s' h with
      ⟨_, rfl, _⟩ | ⟨es, files, dirs, hlk, hsc, rfl⟩
    · simp at hp
    · have hgo : ∀ (n : String) (s : List Path) (r' : ScanResult) (s2 : List Path),
          collectImages fsys recursive fuel (dir ++ [n]) s = some (r', s2) →
          ∀ q ∈ r'.files, ReachesImageFile fsys (dir ++ [n]) q :=
        fun n s r' s2 hc => ih (dir ++ [n]) s r' s2 hc
      rcases scanStep_sound hlk hgo (fun x hx => hx) hsc p hp with hin | hre
      · simp at hin
      · exact hre

/-- Completeness of the entry loop under a clean `seen` set and duplicate-free
entry names: every matching file reachable through one of the remaining entries
ends up collected. -/
theorem scanStep_complete {fsys : FS}
    {go : Path → List Path → Option (ScanResult × List Path)} {dir : Path}
    (hgo_scope : ∀ (n : String) (s : List Path) (r : ScanResult) (s' : List Path),
      go (dir ++ [n]) s = some (r, s') →
      s ⊆ s' ∧ ∀ q ∈ s', q ∈ s ∨ q = dir ++ [n] ∨ properBelow (dir ++ [n]) q)
    (hgo_complete : ∀ (n : String) (s : List Path) (r : ScanResult) (s' : List Path),
      (∀ q, properBelow (dir ++ [n]) q → q ∉ s) →
      go (dir ++ [n]) s = some (r, s') →
      ∀ p, ReachesImageFile fsys (dir ++ [n]) p → p ∈ r.files) :
    ∀ {es : List Dirent} {files dirs seen : List Path}
      {out : List Path × List Path × List Path},
      (es.map Dirent.name).Nodup →
      (∀ e ∈ es, e.kind = EntryKind.directory →
        (dir ++ [e.name]) ∉ seen ∧ ∀ q, properBelow (dir ++ [e.name]) q → q ∉ seen) →
      scanStep go true dir es files dirs seen = some out →
      ∀ p, ((∃ e ∈ es, e.kind = EntryKind.file ∧ isImageName e.name = true ∧
              p = dir ++ [e.name]) ∨
            (∃ e ∈ es, e.kind = EntryKind.directory ∧
              ReachesImageFile fsys (dir ++ [e.name]) p)) →
      p ∈ out.1 := by
  intro es
  induction es with
  | nil =>
    intro files dirs seen out _ _ _ p hw
    rcases hw with ⟨e, he, _⟩ | ⟨e, he, _⟩ <;> simp at he
  | cons e rest ih =>
    intro files dirs seen out hnames hinv h p hw
    obtain ⟨nm, kd⟩ := e
    have hnames' : (rest.map Dirent.name).Nodup := (List.nodup_cons.1 hnames).2
    have hnm_not : nm ∉ rest.map Dirent.name := (List.nodup_cons.1 hnames).1
    cases kd with
    | directory =>
      simp only [scanStep] at h
      obtain ⟨hns, hqs⟩ := hinv ⟨nm, EntryKind.directory⟩ (List.mem_cons_self _ _) rfl
      rw [if_pos ⟨trivial, hns⟩] at h
      rcases hgo' : go (dir ++ [nm]) (setAdd seen (dir ++ [nm])) with _ | rs
      · rw [hgo'] at h; exact absurd h (by simp)
      · obtain ⟨r, seen'⟩ := rs
        rw [hgo'] at h
        have hclean : ∀ q, properBelow (dir ++ [nm]) q → q ∉ setAdd seen (dir ++ [nm]) := by
          intro q hq hmem
          rcases mem_setAdd.1 hmem with hmem' | rfl
          · exact hqs q hq hmem'
          · exact properBelow_irrefl _ hq
        have hscope := hgo_scope nm _ r seen' hgo'
        have hseen'_inv : ∀ e₂ ∈ rest, e₂.kind = EntryKind.directory →
            (dir ++ [e₂.name]) ∉ seen' ∧
              ∀ q, properBelow (dir ++ [e₂.name]) q → q ∉ seen' := by
          intro e₂ he₂ hk₂
          obtain ⟨hns₂, hqs₂⟩ := hinv e₂ (List.mem_cons_of_mem _ he₂) hk₂
          have hne : nm ≠ e₂.name := by
            intro hcontra
            exact hnm_not (hcontra ▸ List.mem_map_of_mem Dirent.name he₂)
          constructor
          · intro hmem
            rcases hscope.2 _ hmem with hmem' | heq | hpb
            · rcases mem_setAdd.1 hmem' with hmem'' | heq'
              · exact hns₂ hmem''
              · exact child_paths_disjoint hne (Or.inl heq') (Or.inl rfl)
            · exact child_paths_disjoint hne (Or.inl heq) (Or.inl rfl)
            · exact child_paths_disjoint hne (Or.inr hpb) (Or.inl rfl)
          · intro q hq hmem
            rcases hscope.2 _ hmem with hmem' | heq | hpb
            · rcases mem_setAdd.1 hmem' with hmem'' | heq'
              · exact hqs₂ q hq hmem''
              · exact child_paths_disjoint hne (Or.inl heq') (Or.inr hq)
            · exact child_paths_disjoint hne (Or.inl heq) (Or.inr hq)
            · exact child_paths_disjoint hne (Or.inr hpb) (Or.inr hq)
        rcases hw with ⟨e', he', hk', him', hp'⟩ | ⟨e', he', hk', hre'⟩
        · rcases List.mem_cons.1 he' with rfl | he'₂
          · simp at hk'
          · exact ih hnames' hseen'_inv h p
              (Or.inl ⟨e', he'₂, hk', him', hp'⟩)
        · rcases List.mem_cons.1 he' with rfl | he'₂
          · have hpr : p ∈ r.files := hgo_complete nm _ r seen' hclean hgo' p hre'
            have hpu : p ∈ setUnion files r.files := mem_setUnion.2 (Or.inr hpr)
            exact (scanStep_mono h).1 hpu
          · exact ih hnames' hseen'_inv h p (Or.inr ⟨e', he'₂, hk', hre'⟩)
    | file =>
      simp only [scanStep] at h
      have hinv' : ∀ e₂ ∈ rest, e₂.kind = EntryKind.directory →
          (dir ++ [e₂.name]) ∉ seen ∧
            ∀ q, properBelow (dir ++ [e₂.name]) q → q ∉ seen :=
        fun e₂ he₂ hk₂ => hinv e₂ (List.mem_cons_of_mem _ he₂) hk₂
      by_cases hi : isImageName nm
      · rw [if_pos hi] at h
        rcases hw with ⟨e', he', hk', him', hp'⟩ | ⟨e', he', hk', hre'⟩
        · rcases List.mem_cons.1 he' with rfl | he'₂
          · subst hp'
            exact (scanStep_mono h).1 (mem_setAdd.2 (Or.inr rfl))
          · exact ih hnames' hinv' h p (Or.inl ⟨e', he'₂, hk', him', hp'⟩)
        · rcases List.mem_cons.1 he' with rfl | he'₂
          · simp at hk'
          · exact ih hnames' hinv' h p (Or.inr ⟨e', he'₂, hk', hre'⟩)
      · rw [if_neg hi] at h
        rcases hw with ⟨e', he', hk', him', hp'⟩ | ⟨e', he', hk', hre'⟩
        · rcases List.mem_cons.1 he' with rfl | he'₂
          · exact absurd him' hi
          · exact ih hnames' hinv' h p (Or.inl ⟨e', he'₂, hk', him', hp'⟩)
        · rcases List.mem_cons.1 he' with rfl | he'₂
          · simp at hk'
          · exact ih hnames' hinv' h p (Or.inr ⟨e', he'₂, hk', hre'⟩)
    | symlink t =>
      simp only [scanStep] at h
      have hinv' : ∀ e₂ ∈ rest, e₂.kind = EntryKind.directory →
          (dir ++ [e₂.name]) ∉ seen ∧
            ∀ q, properBelow (dir ++ [e₂.name]) q → q ∉ seen :=
        fun e₂ he₂ hk₂ => hinv e₂ (List.mem_cons_of_mem _ he₂) hk₂
      rcases hw with ⟨e', he', hk', him', hp'⟩ | ⟨e', he', hk', hre'⟩
      · rcases List.mem_cons.1 he' with rfl | he'₂
        · simp at hk'
        · exact ih hnames' hinv' h p (Or.inl ⟨e', he'₂, hk', him', hp'⟩)
      · rcases List.mem_cons.1 he' with rfl | he'₂
        · simp at hk'
        · exact ih hnames' hinv' h p (Or.inr ⟨e', he'₂, hk', hre'⟩)
    | other =>
      simp only [scanStep] at h
      have hinv' : ∀ e₂ ∈ rest, e₂.kind = EntryKind.directory →
          (dir ++ [e₂.name]) ∉ seen ∧
            ∀ q, properBelow (dir ++ [e₂.name]) q → q ∉ seen :=
        fun e₂ he₂ hk₂ => hinv e₂ (List.mem_cons_of_mem _ he₂) hk₂
      rcases hw with ⟨e', he', hk', him', hp'⟩ | ⟨e', he', hk', hre'⟩
      · rcases List.mem_cons.1 he' with rfl | he'₂
        · simp at hk'
        · exact ih hnames' hinv' h p (Or.inl ⟨e', he'₂, hk', him', hp'⟩)
      · rcases List.mem_cons.1 he' with rfl | he'₂
        · simp at hk'
        · exact ih hnames' hinv' h p (Or.inr ⟨e', he'₂, hk', hre'⟩)

/-- Completeness of the scanner over well-formed listings: started with a
`seen` set containing nothing below `dir`, it collects every matching file
reachable from `dir` through real directory entries. -/
theorem collectImages_complete (fsys : FS) (hwf : WFListing fsys) :
    ∀ (fuel : Nat) (dir : Path) (seen : List Path) (r : ScanResult) (s' : List Path),
      (∀ q, properBelow dir q → q ∉ seen) →
      collectImages fsys true fuel dir seen = some (r, s') →
      ∀ p, ReachesImageFile fsys dir p → p ∈ r.files := by
  intro fuel
  induction fuel with
  | zero => intro dir seen r s' _ h; simp [collectImages] at h
  | succ fuel ih =>
    intro dir seen r s' hseen h p hp
    rcases collectImages_cases fsys true fuel dir seen r s' h with
      ⟨hlk, rfl, _⟩ | ⟨es₀, files, dirs, hlk, hsc, rfl⟩
    · obtain ⟨d, es, n, hr, hlkd, _, _, _⟩ := hp
      cases hr with
      | refl => rw [hlk] at hlkd; exact absurd hlkd (by simp)
      | step h1 _ _ => rw [hlk] at h1; exact absurd h1 (by simp)
    · have hgo_scope : ∀ (n : String) (s : List Path) (r' : ScanResult) (s2 : List Path),
          collectImages fsys true fuel (dir ++ [n]) s = some (r', s2) →
          s ⊆ s2 ∧ ∀ q ∈ s2, q ∈ s ∨ q = dir ++ [n] ∨ properBelow (dir ++ [n]) q := by
        intro n s r' s2 hc
        obtain ⟨h1, h2⟩ := collectImages_scope fsys true fuel (dir ++ [n]) s r' s2 hc
        exact ⟨h1, fun q hq => (h2 q hq).imp id Or.inr⟩
      have hgo_complete : ∀ (n : String) (s : List Path) (r' : ScanResult) (s2 : List Path),
          (∀ q, properBelow (dir ++ [n]) q → q ∉ s) →
          collectImages fsys true fuel (dir ++ [n]) s = some (r', s2) →
          ∀ q, ReachesImageFile fsys (dir ++ [n]) q → q ∈ r'.files :=
        fun n s r' s2 hcl hc => ih (dir ++ [n]) s r' s2 hcl hc
      have hnames : (es₀.map Dirent.name).Nodup := hwf (dir, es₀) (lookupFS_mem hlk)
      have hinv : ∀ e ∈ es₀, e.kind = EntryKind.directory →
          (dir ++ [e.name]) ∉ seen ∧
            ∀ q, properBelow (dir ++ [e.name]) q → q ∉ seen := by
        intro e _ _
        constructor
        · exact hseen _ (properBelow_child dir e.name)
        · exact fun q hq =>
            hseen q (properBelow_trans (properBelow_child dir e.name) hq)
      have hw : (∃ e ∈ es₀, e.kind = EntryKind.file ∧ isImageName e.name = true ∧
            p = dir ++ [e.name]) ∨
          (∃ e ∈ es₀, e.kind = EntryKind.directory ∧
            ReachesImageFile fsys (dir ++ [e.name]) p) := by
        obtain ⟨d, es, n, hr, hlkd, hn, him, rfl⟩ := hp
        cases hr with
        | refl =>
          rw [hlk] at hlkd
          obtain rfl := Option.some_injective _ hlkd
          exact Or.inl ⟨⟨n, EntryKind.file⟩, hn, rfl, him, rfl⟩
        | @step _ _ es₂ m h1 h2 h3 =>
          rw [hlk] at h1
          obtain rfl := Option.some_injective _ h1
          exact Or.inr ⟨⟨m, EntryKind.directory⟩, h2, rfl,
            ⟨d, es, n, h3, hlkd, hn, him, rfl⟩⟩
      exact scanStep_complete hgo_scope hgo_complete hnames hinv hsc p hw

theorem scanStep_isSome {go : Path → List Path → Option (ScanResult × List Path)}
    (recursive : Bool) {dir : Path}
    (hgo : ∀ (n : String) (s : List Path), (go (dir ++ [n]) s).isSome = true) :
    ∀ (es : List Dirent) (files dirs seen : List Path),
      (scanStep go recursive dir es files dirs seen).isSome = true := by
  intro es
  induction es with
  | nil => intro files dirs seen; simp [scanStep]
  | cons e rest ih =>
    intro files dirs seen
    obtain ⟨nm, kd⟩ := e
    cases kd with
    | directory =>
      simp only [scanStep]
      by_cases hc : recursive = true ∧ dir ++ [nm] ∉ seen
      · rw [if_pos hc]
        rcases hgo' : go (dir ++ [nm]) (setAdd seen (dir ++ [nm])) with _ | rs
        · have := hgo nm (setAdd seen (dir ++ [nm]))
          rw [hgo'] at this
          simp at this
        · obtain ⟨r, seen'⟩ := rs
          exact ih _ _ _
      · rw [if_neg hc]
        exact ih _ _ _
    | file =>
      simp only [scanStep]
      by_cases hi : isImageName nm
      · rw [if_pos hi]; exact ih _ _ _
      · rw [if_neg hi]; exact ih _ _ _
    | symlink t => simp only [scanStep]; exact ih _ _ _
    | other => simp only [scanStep]; exact ih _ _ _

theorem mem_le_maxKeyLen {fsys : FS} {kv : Path × List Dirent} (h : kv ∈ fsys) :
    kv.1.length ≤ maxKeyLen fsys := by
  unfold maxKeyLen
  induction fsys with
  | nil => simp at h
  | cons kv' rest ih =>
    rcases List.mem_cons.1 h with rfl | h'
    · simp only [List.map_cons, List.foldr_cons]
      exact Nat.le_max_left _ _
    · simp only [List.map_cons, List.foldr_cons]
      exact (ih h').trans (Nat.le_max_right _ _)

/-- Fuel sufficiency: once every listed path is shorter than the remaining
depth budget, the walk completes. Nesting only continues through paths bound
in the filesystem, whose length grows by one per level. -/
theorem collectImages_isSome (fsys : FS) (recursive : Bool) :
    ∀ (fuel : Nat) (dir : Path) (seen : List Path),
      (∀ kv ∈ fsys, kv.1.length < dir.length + fuel) →
      (collectImages fsys recursive (fuel + 1) dir seen).isSome = true := by
  intro fuel
  induction fuel with
  | zero =>
    intro dir seen hb
    rcases hlk : lookupFS fsys dir with _ | es
    · simp [collectImages, hlk]
    · have := hb _ (lookupFS_mem hlk)
      simp at this
  | succ fuel ih =>
    intro dir seen hb
    rcases hlk : lookupFS fsys dir with _ | es
    · simp [collectImages, hlk]
    · have hgo : ∀ (n : String) (s : List Path),
          (collectImages fsys recursive (fuel + 1) (dir ++ [n]) s).isSome = true := by
        intro n s
        refine ih (dir ++ [n]) s (fun kv hkv => ?_)
        have := hb kv hkv
        simp only [List.length_append, List.length_singleton]
        omega
      have hsc := scanStep_isSome recursive hgo es [] [dir] seen
      rcases hout : scanStep (collectImages fsys recursive (fuel + 1)) recursive dir
          es [] [dir] seen with _ | out
      · rw [hout] at hsc; simp at hsc
      · obtain ⟨files, dirs, seen'⟩ := out
        rw [collectImages_succ, hlk]
        dsimp only
        rw [hout]
        rfl

/-- Termination of the scanner on every filesystem with the computed fuel. -/
theorem collectImages_total (fsys : FS) (recursive : Bool) (dir : Path) (seen : List Path) :
    ∃ r s', collectImages fsys recursive (scanFuel fsys) dir seen = some (r, s') := by
  have h := collectImages_isSome fsys recursive (maxKeyLen fsys + 1) dir seen
    (fun kv hkv => by
      have := mem_le_maxKeyLen hkv
      omega)
  rcases hc : collectImages fsys recursive (maxKeyLen fsys + 1 + 1) dir seen with _ | rs
  · rw [hc] at h; simp at h
  · obtain ⟨r, s'⟩ := rs
    refine ⟨r, s', ?_⟩
    have he : scanFuel fsys = maxKeyLen fsys + 1 + 1 := rfl
    rw [he]
    exact hc

/-- C2. For every directory tree with duplicate-free listings, the scanner
terminates and its file set equals exactly the set of regular files under the
scanned directory (reachable through real directory entries) whose lower-cased
extension is in the recognized set; files with other extensions, directories
and non-file entries are never included. -/
theorem collectImages_filter (fsys : FS) (root : Path) (hwf : WFListing fsys) :
    ∃ r s', collectImages fsys true (scanFuel fsys) root [] = some (r, s') ∧
      ∀ p, p ∈ r.files ↔ ReachesImageFile fsys root p := by
  obtain ⟨r, s', h⟩ := collectImages_total fsys true root []
  refine ⟨r, s', h, fun p => ⟨?_, ?_⟩⟩
  · exact fun hp => collectImages_sound fsys true (scanFuel fsys) root [] r s' h p hp
  · exact fun hp =>
      collectImages_complete fsys hwf (scanFuel fsys) root [] r s' (by simp) h p hp

theorem collectImages_filter_witness :
    WFListing [(([ "r" ] : Path), [Dirent.mk "a.png" EntryKind.file,
        Dirent.mk "b.txt" EntryKind.file])] ∧
      ∃ r s', collectImages [(([ "r" ] : Path), [Dirent.mk "a.png" EntryKind.file,
          Dirent.mk "b.txt" EntryKind.file])] true
          (scanFuel [(([ "r" ] : Path), [Dirent.mk "a.png" EntryKind.file,
            Dirent.mk "b.txt" EntryKind.file])]) ["r"] [] = some (r, s') ∧
        ∀ p, p ∈ r.files ↔
          ReachesImageFile [(([ "r" ] : Path), [Dirent.mk "a.png" EntryKind.file,
            Dirent.mk "b.txt" EntryKind.file])] ["r"] p :=
  ⟨by decide, collectImages_filter _ ["r"] (by decide)⟩

/-- A filesystem in which symbolic links form a directory cycle
(`r → e → r`) while `e` also holds a matching image file. -/
def fsCycle : FS :=
  [(["r"], [Dirent.mk "pics" (EntryKind.symlink ["e"])]),
   (["e"], [Dirent.mk "back" (EntryKind.symlink ["r"]), Dirent.mk "a.png" EntryKind.file])]

/-- C3 counterexample. In a tree where symlinks create a directory cycle, a
matching file reachable (through a link) from the scan root is NOT included:
`readdir` reports a symlink as neither file nor directory, so the scanner
never follows it — the `seen` set is not what bounds the walk, and
link-reachable files are missed. -/
theorem collectImages_symlink_cex :
    ReachesImageFileSym fsCycle ["r"] ["e", "a.png"] ∧
      ReachesSym fsCycle ["e"] ["e"] ∧
      collectImages fsCycle true (scanFuel fsCycle) ["r"] [] =
        some (⟨[], [["r"]]⟩, []) ∧
      ["e", "a.png"] ∉ (⟨[], [["r"]]⟩ : ScanResult).files := by
  refine ⟨?_, ReachesSym.refl _, by decide, by decide⟩
  refine ⟨["e"], [Dirent.mk "back" (EntryKind.symlink ["r"]), Dirent.mk "a.png" EntryKind.file],
    "a.png", ?_, by decide, by decide, by decide, rfl⟩
  exact @ReachesSym.link fsCycle ["r"] ["e"] ["e"]
    [Dirent.mk "pics" (EntryKind.symlink ["e"])] "pics" (by decide) (by decide)
    (ReachesSym.refl _)

/-- C3 (amended). On every filesystem — cyclic symlinks included — the scan
with `recursive = true` terminates with the computed fuel, its file list holds
no duplicates, and (for duplicate-free listings) every matching file reachable
through real, non-symlink directory entries is included exactly once. Symlinks
are never followed; the `seen` set (keyed by joined, not resolved, paths) is
not what provides termination. -/
theorem collectImages_terminates_once (fsys : FS) (root : Path) :
    ∃ r s', collectImages fsys true (scanFuel fsys) root [] = some (r, s') ∧
      r.files.Nodup ∧
      (WFListing fsys → ∀ p, ReachesImageFile fsys root p → r.files.count p = 1) := by
  obtain ⟨r, s', h⟩ := collectImages_total fsys true root []
  refine ⟨r, s', h, (collectImages_nodup fsys true _ root [] r s' h).1, fun hwf p hp => ?_⟩
  have hm : p ∈ r.files :=
    collectImages_complete fsys hwf (scanFuel fsys) root [] r s' (by simp) h p hp
  exact count_eq_one_of_nodup_mem (collectImages_nodup fsys true _ root [] r s' h).1 hm

theorem collectImages_terminates_once_witness :
    ∃ r s', collectImages fsCycle true (scanFuel fsCycle) ["e"] [] = some (r, s') ∧
      r.files.Nodup ∧ r.files.count ["e", "a.png"] = 1 := by
  obtain ⟨r, s', h, hnd, hcnt⟩ := collectImages_terminates_once fsCycle ["e"]
  refine ⟨r, s', h, hnd, hcnt (by decide) ["e", "a.png"] ?_⟩
  exact ⟨["e"], [Dirent.mk "back" (EntryKind.symlink ["r"]), Dirent.mk "a.png" EntryKind.file],
    "a.png", Reaches.refl _, by decide, by decide, by decide, rfl⟩

/-! ## Gallery cache: `buildCommandCache` and `refreshCommand`

Source: part_000 lines 57–64 (`ensureDirectory`), 100–111 (`buildCommandCache`)
and 169–188 (`refreshCommand`). `mkdir` failures are modelled by a predicate
`mkdirFails` naming the uncreatable directories (a successful `mkdir` of an
absent directory leaves it unreadable-as-empty, which the scanner already
treats as an empty listing, so no filesystem mutation needs modelling);
`fs.watch` failures likewise by `watchFails`. Watch handles are numbered by an
allocation counter; closing and opening handles is recorded in an event trace. -/

/-- A configured gallery location: either absolute or resolved against the
root (`path.isAbsolute(relative) ? relative : path.resolve(root, relative)`). -/
structure GalleryLocation where
  abs : Bool
  segs : List String
deriving DecidableEq

/-- Per-command configuration (the fields the cache subsystem reads). -/
structure CommandConfig where
  paths : List GalleryLocation
  limit : Option Nat
  recursive : Option Bool
deriving DecidableEq

/-- Models `resolveGalleryPath` (inline in part_000's `buildCommandCache`). -/
def resolveGalleryPath (root : Path) (l : GalleryLocation) : Path :=
  if l.abs then l.segs else root ++ l.segs

/-- Models `ensureDirectory`: `mkdir -p`, rethrowing its failure. -/
def ensureDirectory (mkdirFails : Path → Bool) (dir : Path) : Except Unit Unit :=
  if mkdirFails dir then Except.error () else Except.ok ()

/-- The `for (const relative of config.paths)` loop of `buildCommandCache`,
accumulating the deduplicated `fileSet` and `dirSet`. Outer `none` is fuel
exhaustion of the scanner; `Except.error` is a propagated `ensureDirectory`
failure. -/
def buildLoop (fsys : FS) (mkdirFails : Path → Bool) (fuel : Nat) (recursive : Bool)
    (root : Path) :
    List GalleryLocation → List Path → List Path → Option (Except Unit ScanResult)
  | [], fileSet, dirSet => some (Except.ok ⟨fileSet, dirSet⟩)
  | loc :: rest, fileSet, dirSet =>
    let resolved := resolveGalleryPath root loc
    match ensureDirectory mkdirFails resolved with
    | Except.error e => some (Except.error e)
    | Except.ok _ =>
      match collectImages fsys recursive fuel resolved [] with
      | none => none
      | some (r, _) =>
        buildLoop fsys mkdirFails fuel recursive root rest
          (setUnion fileSet r.files) (setUnion dirSet r.directories)

/-- Models `buildCommandCache(config, root)`: union of the scans of all configured
directories for one command, files and directories each deduplicated. -/
def buildCommandCache (fsys : FS) (mkdirFails : Path → Bool) (fuel : Nat)
    (cfg : CommandConfig) (root : Path) : Option (Except Unit ScanResult) :=
  buildLoop fsys mkdirFails fuel (cfg.recursive.getD true) root cfg.paths [] []

/-- Per-command cache entry: the published file list and the live watch
handles (`CommandState` in the source). -/
structure CmdState where
  files : List Path
  watchers : List Nat
deriving DecidableEq

/-- A watcher lifecycle event: closing a handle or opening one on a directory. -/
inductive WEvent where
  | closeW : Nat → WEvent
  | openW : Path → Nat → WEvent
deriving DecidableEq

/-- Models `registerWatchers(directories, refresh)`: open one watch per directory,
skipping (and only logging) per-directory failures. Returns the handle list,
the next fresh handle number and the open events in order. -/
def registerWatchers (watchFails : Path → Bool) :
    List Path → Nat → List Nat × Nat × List WEvent
  | [], ctr => ([], ctr, [])
  | d :: rest, ctr =>
    if watchFails d then registerWatchers watchFails rest ctr
    else
      let out := registerWatchers watchFails rest (ctr + 1)
      (ctr :: out.1, out.2.1, WEvent.openW d ctr :: out.2.2)

/-- Models `refreshCommand(name, commandConfig)`: rebuild the cache; on success
replace the published file list, close every watcher held from the prior
refresh, then install fresh watchers on the scanned directory set. A
`buildCommandCache` failure propagates and touches nothing. -/
def refreshCommand (fsys : FS) (mkdirFails watchFails : Path → Bool) (fuel : Nat)
    (cfg : CommandConfig) (root : Path) (state : Option CmdState) (ctr : Nat) :
    Option (Except Unit (CmdState × Nat × List WEvent)) :=
  match buildCommandCache fsys mkdirFails fuel cfg root with
  | none => none
  | some (Except.error e) => some (Except.error e)
  | some (Except.ok r) =>
    let st := state.getD ⟨[], []⟩
    let closes := st.watchers.map WEvent.closeW
    let out := registerWatchers watchFails r.directories ctr
    some (Except.ok (⟨r.files, out.1⟩, out.2.1, closes ++ out.2.2))

/-- The `commandStates` map entry for the command after a refresh attempt:
only a successful refresh replaces it; a thrown refresh leaves the previously
published entry in place. -/
def publishedAfterRefresh (st : Option CmdState)
    (out : Option (Except Unit (CmdState × Nat × List WEvent))) : Option CmdState :=
  match out with
  | some (Except.ok (st', _, _)) => some st'
  | _ => st

instance {ε α : Type} [DecidableEq ε] [DecidableEq α] : DecidableEq (Except ε α) :=
  fun a b =>
    match a, b with
    | Except.error e1, Except.error e2 =>
      if h : e1 = e2 then Decidable.isTrue (by rw [h])
      else Decidable.isFalse (fun hc => h (by injection hc))
    | Except.error _, Except.ok _ => Decidable.isFalse (fun hc => Except.noConfusion hc)
    | Except.ok _, Except.error _ => Decidable.isFalse (fun hc => Except.noConfusion hc)
    | Except.ok a1, Except.ok a2 =>
      if h : a1 = a2 then Decidable.isTrue (by rw [h])
      else Decidable.isFalse (fun hc => h (by injection hc))

theorem buildLoop_spec (fsys : FS) (mkdirFails : Path → Bool) (fuel : Nat)
    (recursive : Bool) (root : Path) :
    ∀ (locs : List GalleryLocation) (fileSet dirSet : List Path) (r : ScanResult),
      buildLoop fsys mkdirFails fuel recursive root locs fileSet dirSet =
        some (Except.ok r) →
      fileSet.Nodup → dirSet.Nodup →
      r.files.Nodup ∧ r.directories.Nodup ∧
        ∀ p, p ∈ r.files ↔ p ∈ fileSet ∨ ∃ loc ∈ locs, ∃ rr s',
          collectImages fsys recursive fuel (resolveGalleryPath root loc) [] =
            some (rr, s') ∧ p ∈ rr.files := by
  intro locs
  induction locs with
  | nil =>
    intro fileSet dirSet r h hf hd
    simp only [buildLoop, Option.some.injEq, Except.ok.injEq] at h
    subst h
    exact ⟨hf, hd, fun p => by simp⟩
  | cons loc rest ih =>
    intro fileSet dirSet r h hf hd
    simp only [buildLoop] at h
    rcases hens : ensureDirectory mkdirFails (resolveGalleryPath root loc) with e | u
    · rw [hens] at h
      simp at h
    · rw [hens] at h
      rcases hc : collectImages fsys recursive fuel (resolveGalleryPath root loc) []
        with _ | rs
      · rw [hc] at h
        simp at h
      · obtain ⟨rr, s'⟩ := rs
        rw [hc] at h
        obtain ⟨h1, h2, h3⟩ :=
          ih (setUnion fileSet rr.files) (setUnion dirSet rr.directories) r h
            (nodup_setUnion hf _) (nodup_setUnion hd _)
        refine ⟨h1, h2, fun p => ?_⟩
        rw [h3 p]
        constructor
        · rintro (hin | ⟨loc', hl', hrest⟩)
          · rcases mem_setUnion.1 hin with hin' | hin'
            · exact Or.inl hin'
            · exact Or.inr ⟨loc, List.mem_cons_self _ _, rr, s', hc, hin'⟩
          · exact Or.inr ⟨loc', List.mem_cons_of_mem _ hl', hrest⟩
        · rintro (hin | ⟨loc', hl', rr', s'', hc', hin'⟩)
          · exact Or.inl (mem_setUnion.2 (Or.inl hin))
          · rcases List.mem_cons.1 hl' with rfl | hl''
            · rw [hc] at hc'
              obtain ⟨heq1, _⟩ : rr = rr' ∧ s' = s'' := by
                have := Option.some_injective _ hc'
                exact ⟨congrArg Prod.fst this, congrArg Prod.snd this⟩
              subst heq1
              exact Or.inl (mem_setUnion.2 (Or.inr hin'))
            · exact Or.inr ⟨loc', hl'', rr', s'', hc', hin'⟩

/-- C8. The file list a refresh produces for a command is deduplicated across
all its configured directories: it is duplicate-free, contains every
successfully scanned path exactly once, and its membership is exactly the
union of the per-directory scans — overlapping directories or a file reachable
from two configured locations contribute a single entry. -/
theorem buildCommandCache_dedup (fsys : FS) (mkdirFails : Path → Bool) (fuel : Nat)
    (cfg : CommandConfig) (root : Path) (r : ScanResult)
    (h : buildCommandCache fsys mkdirFails fuel cfg root = some (Except.ok r)) :
    r.files.Nodup ∧ (∀ p ∈ r.files, r.files.count p = 1) ∧ r.directories.Nodup ∧
      ∀ p, p ∈ r.files ↔ ∃ loc ∈ cfg.paths, ∃ rr s',
        collectImages fsys (cfg.recursive.getD true) fuel (resolveGalleryPath root loc) [] =
          some (rr, s') ∧ p ∈ rr.files := by
  obtain ⟨h1, h2, h3⟩ :=
    buildLoop_spec fsys mkdirFails fuel (cfg.recursive.getD true) root cfg.paths [] [] r h
      List.nodup_nil List.nodup_nil
  refine ⟨h1, fun p hp => count_eq_one_of_nodup_mem h1 hp, h2, fun p => ?_⟩
  rw [h3 p]
  simp

theorem buildCommandCache_dedup_witness :
    ∃ r, buildCommandCache [((["g", "a"] : Path), [Dirent.mk "x.png" EntryKind.file])]
        (fun _ => false) 4
        ⟨[⟨false, ["a"]⟩, ⟨false, ["a"]⟩], none, none⟩ ["g"] = some (Except.ok r) ∧
      r.files = [["g", "a", "x.png"]] ∧ r.files.count ["g", "a", "x.png"] = 1 := by
  refine ⟨⟨[["g", "a", "x.png"]], [["g", "a"]]⟩, by decide, rfl, ?_⟩
  have h := buildCommandCache_dedup [((["g", "a"] : Path), [Dirent.mk "x.png" EntryKind.file])]
    (fun _ => false) 4 ⟨[⟨false, ["a"]⟩, ⟨false, ["a"]⟩], none, none⟩ ["g"]
    ⟨[["g", "a", "x.png"]], [["g", "a"]]⟩ (by decide)
  exact h.2.1 ["g", "a", "x.png"] (by decide)

/-! ### C4: a failed `ensureDirectory` aborts the whole rebuild -/

/-- Gallery filesystem for the C4 counterexample: directory `g/a` holds a
matching image, directory `g/b` will fail to be created. -/
def fsPartial : FS := [(["g", "a"], [Dirent.mk "x.png" EntryKind.file])]

/-- Command configured with directories `a` then `b` under the root. -/
def cfgPartial : CommandConfig := ⟨[⟨false, ["a"]⟩, ⟨false, ["b"]⟩], none, none⟩

/-- Predicate: `mkdir` fails exactly for `g/b`. -/
def mkdirFailsB : Path → Bool := fun p => p == ["g", "b"]

/-- C4 counterexample. `g/a` scans successfully and contributes `x.png` to the
partial union, then `ensureDirectory` fails on `g/b`: the refresh propagates
the error and the partially built union is discarded — the published state
keeps its previous (here empty) file list, so the file from the
earlier-listed directory does NOT remain in the published result. -/
theorem refresh_partial_union_cex :
    (∃ rr s', collectImages fsPartial true (scanFuel fsPartial) ["g", "a"] [] =
        some (rr, s') ∧ ["g", "a", "x.png"] ∈ rr.files) ∧
      refreshCommand fsPartial mkdirFailsB (fun _ => false) (scanFuel fsPartial)
          cfgPartial ["g"] (some ⟨[], []⟩) 0 = some (Except.error ()) ∧
      publishedAfterRefresh (some ⟨[], []⟩)
          (refreshCommand fsPartial mkdirFailsB (fun _ => false) (scanFuel fsPartial)
            cfgPartial ["g"] (some ⟨[], []⟩) 0) = some ⟨[], []⟩ ∧
      ["g", "a", "x.png"] ∉ (⟨[], []⟩ : CmdState).files := by
  refine ⟨⟨⟨[["g", "a", "x.png"]], [["g", "a"]]⟩, [], by decide, by decide⟩,
    by decide, by decide, by decide⟩

/-- C4 (amended). When `ensureDirectory` fails for one of a command's
configured directories during refresh, the failure propagates to the caller of
`refresh` and the partially built union is discarded: the previously published
file list is left untouched, so the command stays usable with its prior
snapshot — not with the subset of directories that succeeded in this run. -/
theorem refresh_failure_keeps_snapshot (fsys : FS) (mkdirFails watchFails : Path → Bool)
    (fuel : Nat) (cfg : CommandConfig) (root : Path) (st : Option CmdState) (ctr : Nat)
    (u : Unit)
    (h : buildCommandCache fsys mkdirFails fuel cfg root = some (Except.error u)) :
    refreshCommand fsys mkdirFails watchFails fuel cfg root st ctr =
        some (Except.error u) ∧
      publishedAfterRefresh st
        (refreshCommand fsys mkdirFails watchFails fuel cfg root st ctr) = st := by
  unfold refreshCommand
  rw [h]
  exact ⟨rfl, rfl⟩

theorem refresh_failure_keeps_snapshot_witness :
    refreshCommand fsPartial mkdirFailsB (fun _ => false) (scanFuel fsPartial)
        cfgPartial ["g"] (some ⟨[["old.png"]], [3]⟩) 0 = some (Except.error ()) ∧
      publishedAfterRefresh (some ⟨[["old.png"]], [3]⟩)
        (refreshCommand fsPartial mkdirFailsB (fun _ => false) (scanFuel fsPartial)
          cfgPartial ["g"] (some ⟨[["old.png"]], [3]⟩) 0) = some ⟨[["old.png"]], [3]⟩ :=
  refresh_failure_keeps_snapshot fsPartial mkdirFailsB (fun _ => false) (scanFuel fsPartial)
    cfgPartial ["g"] (some ⟨[["old.png"]], [3]⟩) 0 () (by decide)

theorem registerWatchers_spec (watchFails : Path → Bool) :
    ∀ (dirs : List Path) (ctr : Nat) (ws : List Nat) (ctr' : Nat) (evs : List WEvent),
      registerWatchers watchFails dirs ctr = (ws, ctr', evs) →
      ctr ≤ ctr' ∧
      (∀ e ∈ evs, ∃ d hd, e = WEvent.openW d hd ∧ d ∈ dirs ∧ ctr ≤ hd ∧ hd < ctr') ∧
      (∀ hd ∈ ws, ctr ≤ hd ∧ hd < ctr') ∧
      ws.Nodup ∧
      (dirs.Nodup → ∀ d h1 h2, WEvent.openW d h1 ∈ evs → WEvent.openW d h2 ∈ evs →
        h1 = h2) := by
  intro dirs
  induction dirs with
  | nil =>
    intro ctr ws ctr' evs h
    simp only [registerWatchers, Prod.mk.injEq] at h
    obtain ⟨rfl, rfl, rfl⟩ := h
    exact ⟨Nat.le_refl _, by simp, by simp, List.nodup_nil, by simp⟩
  | cons d rest ih =>
    intro ctr ws ctr' evs h
    simp only [registerWatchers] at h
    by_cases hf : watchFails d
    · rw [if_pos hf] at h
      obtain ⟨h1, h2, h3, h4, h5⟩ := ih ctr ws ctr' evs h
      refine ⟨h1, ?_, h3, h4, ?_⟩
      · intro e he
        obtain ⟨d', hd', he', hmem, hlo, hhi⟩ := h2 e he
        exact ⟨d', hd', he', List.mem_cons_of_mem _ hmem, hlo, hhi⟩
      · intro hnd d' h1' h2' hm1 hm2
        exact h5 (List.nodup_cons.1 hnd).2 d' h1' h2' hm1 hm2
    · rw [if_neg hf] at h
      rcases hrest : registerWatchers watchFails rest (ctr + 1) with ⟨ws', ctr'', evs'⟩
      rw [hrest] at h
      simp only [Prod.mk.injEq] at h
      obtain ⟨rfl, rfl, rfl⟩ := h
      obtain ⟨h1, h2, h3, h4, h5⟩ := ih (ctr + 1) ws' ctr'' evs' hrest
      refine ⟨by omega, ?_, ?_, ?_, ?_⟩
      · intro e he
        rcases List.mem_cons.1 he with rfl | he'
        · exact ⟨d, ctr, rfl, List.mem_cons_self _ _, Nat.le_refl _, by omega⟩
        · obtain ⟨d', hd', he'', hmem, hlo, hhi⟩ := h2 e he'
          exact ⟨d', hd', he'', List.mem_cons_of_mem _ hmem, by omega, hhi⟩
      · intro hd hmem
        rcases List.mem_cons.1 hmem with rfl | hmem'
        · exact ⟨Nat.le_refl _, by omega⟩
        · obtain ⟨hlo, hhi⟩ := h3 hd hmem'
          exact ⟨by omega, hhi⟩
      · rw [List.nodup_cons]
        refine ⟨fun hmem => ?_, h4⟩
        obtain ⟨hlo, _⟩ := h3 ctr hmem
        omega
      · intro hnd d' h1' h2' hm1 hm2
        have hdnotin : ∀ hh, WEvent.openW d hh ∉ evs' := by
          intro hh hmem
          obtain ⟨d2, hd2, heq, hmem2, _, _⟩ := h2 _ hmem
          obtain ⟨rfl, rfl⟩ : d = d2 ∧ hh = hd2 := by
            have h1e := congrArg (fun x => match x with
              | WEvent.openW a b => (a, b)
              | WEvent.closeW b => ([], b)) heq
            simp at h1e
            exact ⟨h1e.1, h1e.2⟩
          exact (List.nodup_cons.1 hnd).1 hmem2
        rcases List.mem_cons.1 hm1 with he1 | hm1'
        · rcases List.mem_cons.1 hm2 with he2 | hm2'
          · have e1 : d' = d ∧ h1' = ctr := by
              have := congrArg (fun x => match x with
                | WEvent.openW a b => (a, b)
                | WEvent.closeW b => ([], b)) he1
              simp at this
              exact ⟨this.1, this.2⟩
            have e2 : d' = d ∧ h2' = ctr := by
              have := congrArg (fun x => match x with
                | WEvent.openW a b => (a, b)
                | WEvent.closeW b => ([], b)) he2
              simp at this
              exact ⟨this.1, this.2⟩
            rw [e1.2, e2.2]
          · obtain ⟨rfl, rfl⟩ : d' = d ∧ h1' = ctr := by
              have := congrArg (fun x => match x with
                | WEvent.openW a b => (a, b)
                | WEvent.closeW b => ([], b)) he1
              simp at this
              exact ⟨this.1, this.2⟩
            exact absurd hm2' (hdnotin h2')
        · rcases List.mem_cons.1 hm2 with he2 | hm2'
          · obtain ⟨rfl, rfl⟩ : d' = d ∧ h2' = ctr := by
              have := congrArg (fun x => match x with
                | WEvent.openW a b => (a, b)
                | WEvent.closeW b => ([], b)) he2
              simp at this
              exact ⟨this.1, this.2⟩
            exact absurd hm1' (hdnotin h1')
          · exact h5 (List.nodup_cons.1 hnd).2 d' h1' h2' hm1' hm2'

/-- C5. On every successful refresh of a command (part_000's
`refreshCommand`), the trace is exactly: a close of every watch handle held
from the prior refresh, in order, followed only by opens of fresh handles —
so all stale handles are closed before any new handle is installed, none is
leaked, the new handles are pairwise distinct and fresh, and no directory
receives two of the new live handles. -/
theorem refresh_watcher_lifecycle (fsys : FS) (mkdirFails watchFails : Path → Bool)
    (fuel : Nat) (cfg : CommandConfig) (root : Path) (st : CmdState) (ctr : Nat)
    (st' : CmdState) (ctr' : Nat) (trace : List WEvent)
    (h : refreshCommand fsys mkdirFails watchFails fuel cfg root (some st) ctr =
      some (Except.ok (st', ctr', trace))) :
    ∃ opens,
      trace = st.watchers.map WEvent.closeW ++ opens ∧
      (∀ e ∈ opens, ∃ d hd, e = WEvent.openW d hd) ∧
      (∀ hd ∈ st.watchers, WEvent.closeW hd ∈ trace) ∧
      (∀ hd ∈ st'.watchers, ctr ≤ hd) ∧
      st'.watchers.Nodup ∧
      (∀ d h1 h2, WEvent.openW d h1 ∈ opens → WEvent.openW d h2 ∈ opens → h1 = h2) := by
  unfold refreshCommand at h
  rcases hb : buildCommandCache fsys mkdirFails fuel cfg root with _ | be
  · rw [hb] at h; exact absurd h (by simp)
  · rw [hb] at h
    rcases be with e | r
    · exact absurd h (by simp)
    · simp only [Option.getD] at h
      rcases hreg : registerWatchers watchFails r.directories ctr with ⟨ws, ctr'', evs⟩
      rw [hreg] at h
      simp only [Option.some.injEq, Except.ok.injEq, Prod.mk.injEq] at h
      obtain ⟨hst, hctr, htrace⟩ := h
      subst hst
      subst htrace
      obtain ⟨_, h2, h3, h4, h5⟩ := registerWatchers_spec watchFails r.directories ctr
        ws ctr'' evs hreg
      have hdirs : r.directories.Nodup :=
        (buildLoop_spec fsys mkdirFails fuel (cfg.recursive.getD true) root cfg.paths [] [] r
          hb List.nodup_nil List.nodup_nil).2.1
      refine ⟨evs, rfl, ?_, ?_, ?_, h4, fun d h1' h2' hm1 hm2 => h5 hdirs d h1' h2' hm1 hm2⟩
      · intro e he
        obtain ⟨d, hd, heq, _, _, _⟩ := h2 e he
        exact ⟨d, hd, heq⟩
      · intro hd hmem
        exact List.mem_append_left _ (List.mem_map_of_mem WEvent.closeW hmem)
      · intro hd hmem
        exact (h3 hd hmem).1

theorem refresh_watcher_lifecycle_witness :
    ∃ opens,
      ([WEvent.closeW 7, WEvent.openW ["g", "a"] 10] : List WEvent) =
          ([7] : List Nat).map WEvent.closeW ++ opens ∧
        (∀ e ∈ opens, ∃ d hd, e = WEvent.openW d hd) ∧
        (∀ hd ∈ ([7] : List Nat),
          WEvent.closeW hd ∈ ([WEvent.closeW 7, WEvent.openW ["g", "a"] 10] : List WEvent)) ∧
        (∀ hd ∈ ([10] : List Nat), 10 ≤ hd) ∧
        ([10] : List Nat).Nodup ∧
        (∀ d h1 h2, WEvent.openW d h1 ∈ opens → WEvent.openW d h2 ∈ opens → h1 = h2) :=
  refresh_watcher_lifecycle ([] : FS) (fun _ => false) (fun _ => false) (scanFuel [])
    ⟨[⟨false, ["a"]⟩], none, none⟩ ["g"] ⟨[], [7]⟩ 10 ⟨[], [10]⟩ 11
    [WEvent.closeW 7, WEvent.openW ["g", "a"] 10] (by decide)

/-! ## Command action (C6)

Source: part_000 lines 228–261 (the same logic as index.ts lines 209–249).
`countArg` is the parsed numeric argument (`none` models `NaN`); an
out-of-range or missing argument falls back to `defaultCount`; the cap is the
command's `limit` if configured, else the global `maxCount`; the cache is
refreshed first exactly when the entry is missing or its file list is empty;
an empty list after that yields the apology and no paths; otherwise
`pickRandom(files, min(capped, files.length))` chooses the paths to send. -/

/-- Outcome of one command invocation: whether a refresh ran first, whether
the apology message was sent, and the paths handed to the delivery layer. -/
structure ActionOutcome where
  refreshed : Bool
  apology : Bool
  sent : List Path
deriving DecidableEq

/-- The normalized requested count:
`Number.isFinite(requestCount) && requestCount > 0 ? requestCount : defaultCount`. -/
def normalizeCount (countArg : Option Int) (defaultCount : Nat) : Nat :=
  match countArg with
  | some v => if 0 < v then v.toNat else defaultCount
  | none => defaultCount

/-- The command action body. Outer `none` is fuel exhaustion (scanner or
sampler); `Except.error` is a refresh failure thrown out of the action. -/
def commandAction (fsys : FS) (mkdirFails watchFails : Path → Bool) (fuel : Nat)
    (cfg : CommandConfig) (root : Path) (defaultCount maxCount : Nat)
    (countArg : Option Int) (state : Option CmdState) (ctr : Nat)
    (tape : Nat → Nat) (pfuel : Nat) :
    Option (Except Unit (ActionOutcome × CmdState × Nat)) :=
  match (if (state.isNone || (state.getD ⟨[], []⟩).files.isEmpty : Bool)
         then refreshCommand fsys mkdirFails watchFails fuel cfg root state ctr
         else some (Except.ok (state.getD ⟨[], []⟩, ctr, []))) with
  | none => none
  | some (Except.error e) => some (Except.error e)
  | some (Except.ok (st', ctr', _)) =>
    if st'.files.isEmpty then
      some (Except.ok
        (⟨state.isNone || (state.getD ⟨[], []⟩).files.isEmpty, true, []⟩, st', ctr'))
    else
      match pickRandom st'.files
          (min (min (normalizeCount countArg defaultCount) (cfg.limit.getD maxCount))
            st'.files.length) tape pfuel with
      | none => none
      | some picked =>
        some (Except.ok
          (⟨state.isNone || (state.getD ⟨[], []⟩).files.isEmpty, false, picked⟩, st', ctr'))

/-- C6. On every invocation that completes: the cache is refreshed first if
and only if it was absent or empty, and the number of paths returned equals
`min(requestedCount, perCommandLimitOrGlobalMax, availableFileCount)`, where
the per-command limit falls back to the global `maxCount` and the available
count is the published file count after the conditional refresh (the apology
case returns `0 = min(_, _, 0)` paths). -/
theorem commandAction_spec (fsys : FS) (mkdirFails watchFails : Path → Bool) (fuel : Nat)
    (cfg : CommandConfig) (root : Path) (defaultCount maxCount : Nat)
    (countArg : Option Int) (state : Option CmdState) (ctr : Nat)
    (tape : Nat → Nat) (pfuel : Nat) (out : ActionOutcome) (st' : CmdState) (ctr' : Nat)
    (h : commandAction fsys mkdirFails watchFails fuel cfg root defaultCount maxCount
      countArg state ctr tape pfuel = some (Except.ok (out, st', ctr'))) :
    (out.refreshed = true ↔ (state = none ∨ (state.getD ⟨[], []⟩).files = [])) ∧
      out.sent.length =
        min (normalizeCount countArg defaultCount)
          (min (cfg.limit.getD maxCount) st'.files.length) := by
  unfold commandAction at h
  have hiff : (state.isNone || (state.getD ⟨[], []⟩).files.isEmpty) = true ↔
      (state = none ∨ (state.getD ⟨[], []⟩).files = []) := by
    simp [Option.isNone_iff_eq_none, List.isEmpty_iff]
  rcases href : (if (state.isNone || (state.getD ⟨[], []⟩).files.isEmpty : Bool) then
      refreshCommand fsys mkdirFails watchFails fuel cfg root state ctr
    else some (Except.ok (state.getD ⟨[], []⟩, ctr, []))) with _ | be
  · rw [href] at h; exact absurd h (by simp)
  · rw [href] at h
    rcases be with e | rr
    · exact absurd h (by simp)
    · obtain ⟨st2, ctr2, tr⟩ := rr
      dsimp only at h
      by_cases hemp : st2.files.isEmpty
      · rw [if_pos hemp] at h
        simp only [Option.some.injEq, Except.ok.injEq, Prod.mk.injEq] at h
        obtain ⟨hout, hst, _⟩ := h
        subst hst
        rw [← hout]
        refine ⟨hiff, ?_⟩
        have hf : st2.files = [] := List.isEmpty_iff.1 hemp
        simp [hf]
      · rw [if_neg hemp] at h
        rcases hpick : pickRandom st2.files
            (min (min (normalizeCount countArg defaultCount) (cfg.limit.getD maxCount))
              st2.files.length) tape pfuel with _ | picked
        · rw [hpick] at h; exact absurd h (by simp)
        · rw [hpick] at h
          simp only [Option.some.injEq, Except.ok.injEq, Prod.mk.injEq] at h
          obtain ⟨hout, hst, _⟩ := h
          subst hst
          rw [← hout]
          refine ⟨hiff, ?_⟩
          have hlen := pickRandom_length _ _ _ _ _ hpick
          dsimp only
          omega

theorem commandAction_spec_witness :
    ∃ out st' ctr',
      commandAction [((["g", "a"] : Path), [Dirent.mk "x.png" EntryKind.file,
          Dirent.mk "y.png" EntryKind.file, Dirent.mk "z.png" EntryKind.file])]
        (fun _ => false) (fun _ => false) 4 ⟨[⟨false, ["a"]⟩], none, none⟩ ["g"]
        1 5 (some 2) none 0 (fun k => k) 5 = some (Except.ok (out, st', ctr')) ∧
      out.refreshed = true ∧ out.sent.length = 2 ∧ st'.files.length = 3 := by
  refine ⟨⟨true, false, [["g", "a", "x.png"], ["g", "a", "y.png"]]⟩,
    ⟨[["g", "a", "x.png"], ["g", "a", "y.png"], ["g", "a", "z.png"]], [0]⟩, 1,
    by decide, rfl, ?_, rfl⟩
  have h := commandAction_spec [((["g", "a"] : Path), [Dirent.mk "x.png" EntryKind.file,
      Dirent.mk "y.png" EntryKind.file, Dirent.mk "z.png" EntryKind.file])]
    (fun _ => false) (fun _ => false) 4 ⟨[⟨false, ["a"]⟩], none, none⟩ ["g"]
    1 5 (some 2) none 0 (fun k => k) 5
    ⟨true, false, [["g", "a", "x.png"], ["g", "a", "y.png"]]⟩
    ⟨[["g", "a", "x.png"], ["g", "a", "y.png"], ["g", "a", "z.png"]], [0]⟩ 1 (by decide)
  exact h.2.trans (by decide)

/-! ## Debounce (C9)

Source: part_000 lines 141–147 (equivalently index.ts lines 119–128): each
incoming event clears any pending timer and schedules the callback for
`now + delay`; the callback fires when its deadline arrives uncancelled.
`debounceFires` replays a nondecreasing list of event times against the
pending-deadline state and returns the times at which the callback fires. -/

def debounceFires (delay : Nat) : List Nat → Option Nat → List Nat
  | [], pending =>
    match pending with
    | none => []
    | some d => [d]
  | t :: rest, pending =>
    match pending with
    | none => debounceFires delay rest (some (t + delay))
    | some d =>
      if d ≤ t then d :: debounceFires delay rest (some (t + delay))
      else debounceFires delay rest (some (t + delay))

theorem debounceFires_burst (delay : Nat) :
    ∀ (ts : List Nat) (t0 : Nat),
      List.Chain (fun a b => a ≤ b ∧ b < a + delay) t0 ts →
      debounceFires delay ts (some (t0 + delay)) = [(t0 :: ts).getLast (by simp) + delay] := by
  intro ts
  induction ts with
  | nil => intro t0 _; simp [debounceFires]
  | cons t1 rest ih =>
    intro t0 hch
    cases hch with
    | cons hpair hch' =>
      obtain ⟨hle, hlt⟩ := hpair
      simp only [debounceFires]
      rw [if_neg (by omega)]
      rw [ih t1 hch']
      congr 1

/-- C9. For every burst of `N ≥ 1` filesystem events at nondecreasing times in
which consecutive events are separated by less than the quiet period, the
debounced trigger fires exactly once, at the quiet duration after the last
event: every event before the last resets the pending timer (none fires early,
none is ignored). -/
theorem debounce_collapse (delay : Nat) (t0 : Nat) (ts : List Nat)
    (hburst : List.Chain (fun a b => a ≤ b ∧ b < a + delay) t0 ts) :
    debounceFires delay (t0 :: ts) none = [(t0 :: ts).getLast (by simp) + delay] := by
  simp only [debounceFires]
  exact debounceFires_burst delay ts t0 hburst

theorem debounce_collapse_witness :
    List.Chain (fun a b => a ≤ b ∧ b < a + 200) 0 [100, 150, 320] ∧
      debounceFires 200 [0, 100, 150, 320] none = [520] := by
  have hch : List.Chain (fun a b => a ≤ b ∧ b < a + 200) 0 [100, 150, 320] :=
    List.Chain.cons (by omega)
      (List.Chain.cons (by omega) (List.Chain.cons (by omega) List.Chain.nil))
  refine ⟨hch, ?_⟩
  have h := debounce_collapse 200 0 [100, 150, 320] hch
  simpa using h

end RandomPic
